import Mathlib

/-!
Verification of the diagonal-Sudoku solver in `AIND-Sudoku/solution.py`.

The Python module is shallowly embedded here.  A Sudoku board (the Python
dict `values`) is an association list from two-character cell labels
("A1", ..., "I9") to candidate strings, kept in the fixed key order of the
`boxes` list, exactly as the Python dict created by `dict(zip(boxes, chars))`
keeps its keys.  Candidate strings are `List Char`.  The module-level mutable
list `assignments` is modelled by threading it through every function as the
`assignments` field of `St`.  The two `while`/recursion constructs
(`reduce_puzzle`, `search`) take an explicit fuel argument and return `none`
when it runs out; all theorems quantify over the fuel.
-/

namespace Sudoku

/-- Python: `S = '123456789'`. -/
def S : List Char := "123456789".toList

/-- Python: `ABCDEFGHI = 'ABCDEFGHI'`. -/
def ABCDEFGHI : List Char := "ABCDEFGHI".toList

/-- Python: `rows = '{}'.format(ABCDEFGHI)`. -/
def rows : List Char := ABCDEFGHI

/-- Python: `cols = '{}'.format(S)`. -/
def cols : List Char := S

/-- Python `cross(a, b)`: `[s + t for s in a for t in b]`. -/
def cross (a b : List Char) : List String :=
  a.flatMap (fun s => b.map (fun t => String.mk [s, t]))

/-- Python `r_string(expression)`: `expression[::-1]`. -/
def r_string (expression : List Char) : List Char := expression.reverse

/-- Python: `boxes = cross(rows, cols)`. -/
def boxes : List String := cross rows cols

/-- Python `_get_row_units()`: `[cross(r, cols) for r in rows]`. -/
def row_units : List (List String) := rows.map (fun r => cross [r] cols)

/-- Python `_get_columns_unit()`: `[cross(rows, c) for c in cols]`. -/
def column_units : List (List String) := cols.map (fun c => cross rows [c])

/-- Python `_get_square_units()`: rows and cols are cut into the three
slices `x[0:3]`, `x[3:6]`, `x[6:9]` (`range(0, 9, 3)`) and crossed. -/
def square_units : List (List String) :=
  [rows.take 3, (rows.drop 3).take 3, (rows.drop 6).take 3].flatMap
    (fun rs => [cols.take 3, (cols.drop 3).take 3, (cols.drop 6).take 3].map
      (fun cs => cross rs cs))

/-- Python `_get_diag()`: the two diagonals, zipping `rows` with `cols`
and with the reversed `cols`. -/
def diagonals_u : List (List String) :=
  [(rows.zip cols).map (fun p => String.mk [p.1, p.2]),
   (rows.zip (r_string cols)).map (fun p => String.mk [p.1, p.2])]

/-- Python: `unitlist = row_units + column_units + square_units + diagonals_u`. -/
def unitlist : List (List String) := row_units ++ column_units ++ square_units ++ diagonals_u

/-- Python: `units = dict((s, [u for u in unitlist if s in u]) for s in boxes)`,
viewed as the lookup function of that dict. -/
def units (s : String) : List (List String) := unitlist.filter (fun u => u.contains s)

/-- Python: `peers = dict((s, set(sum(units[s], [])) - {s}) for s in boxes)`,
viewed as the lookup function of that dict; the Python set is modelled as a
duplicate-free list with the same membership. -/
def peers (s : String) : List String := ((units s).flatten.dedup).filter (fun t => t ≠ s)

/-- A board: the Python dict `values`, an association list in `boxes` key order. -/
abbrev Grid : Type := List (String × List Char)

/-- Python `values[box]` (all reads in the module are of present keys;
a missing key is given the empty value). -/
def lookup : Grid → String → List Char
  | [], _ => []
  | p :: rest, b => if p.1 = b then p.2 else lookup rest b

/-- Python `values[box] = value` on a present key: replace the entry in place
(keys are unique, so replacing every match is the dict update). -/
def gset : Grid → String → List Char → Grid
  | [], _, _ => []
  | p :: rest, b, v => if p.1 = b then (p.1, v) :: gset rest b v else p :: gset rest b v

/-- The key list of a board (Python `values.keys()`). -/
def keys (g : Grid) : List String := g.map Prod.fst

/-- The global mutable state: the board being mutated plus the module-level
`assignments` list. -/
structure St where
  values : Grid
  assignments : List Grid
deriving DecidableEq

/-- Python `str.replace(old, '')` on character lists: removes every
(non-overlapping, left-to-right) occurrence of `old :: os`.  The extra `Nat`
is structural-recursion fuel; it is always called with the length of the
scanned list, which suffices because each step consumes at least one
character (the fuel-exhaustion branch is unreachable). -/
def replGo : Nat → List Char → Char → List Char → List Char
  | _, [], _, _ => []
  | 0, _ :: _, _, _ => []
  | n + 1, c :: rest, o, os =>
    if (o :: os).isPrefixOf (c :: rest) then replGo n (rest.drop os.length) o os
    else c :: replGo n rest o os

/-- Python `s.replace(old, '')`; `old = ''` is a no-op for this call pattern. -/
def pyReplace (s old : List Char) : List Char :=
  match old with
  | [] => s
  | o :: os => replGo s.length s o os

/-- Python `assign_value(values, box, value)`: writes the value and, when it
is a single digit, appends a snapshot of the updated board to the global
`assignments` list. -/
def assign_value (st : St) (box : String) (value : List Char) : St :=
  let values := gset st.values box value
  if value.length = 1 then ⟨values, st.assignments ++ [values]⟩
  else ⟨values, st.assignments⟩

/-- Python: `[box for box in values.keys() if len(values[box]) == 1]`. -/
def s_values (g : Grid) : List String :=
  (g.filter (fun p => p.2.length == 1)).map Prod.fst

/-- The body of the `for box in s_values` loop of `eliminate`: read the digit
of `box` and strip it from every peer. -/
def elimBox (st : St) (box : String) : St :=
  let digit := lookup st.values box
  (peers box).foldl
    (fun st peer => assign_value st peer (pyReplace (lookup st.values peer) digit)) st

/-- `eliminate` run on an explicit processing order of the solved boxes. -/
def eliminate_order (ord : List String) (st : St) : St := ord.foldl elimBox st

/-- Python `eliminate(values)`: solved boxes are processed in dict key order. -/
def eliminate (st : St) : St := eliminate_order (s_values st.values) st

/-- Python: `unit_v = [values[box] for box in unit]` followed by the
`twins_num` accumulation (`count == 2 and len == 2`, one entry per occurrence). -/
def twins_num (g : Grid) (unit : List String) : List (List Char) :=
  let unit_v := unit.map (fun box => lookup g box)
  unit_v.filter (fun data => unit_v.count data == 2 && data.length == 2)

/-- The body of the `for unit in unitlist` loop of `naked_twins`. -/
def nt_unit (st : St) (unit : List String) : St :=
  (twins_num st.values unit).foldl
    (fun st numbers =>
      numbers.foldl
        (fun st number =>
          unit.foldl
            (fun st box =>
              if lookup st.values box ≠ numbers then
                assign_value st box (pyReplace (lookup st.values box) [number])
              else st) st) st) st

/-- Python `naked_twins(values)`. -/
def naked_twins (st : St) : St := unitlist.foldl nt_unit st

/-- One step of the character scan of `grid_values`: keep a digit, expand
`'.'` to the full candidate string, silently skip anything else. -/
def gv_step (acc : List (List Char)) (c : Char) : List (List Char) :=
  let acc2 := if cols.contains c then acc ++ [[c]] else acc
  if c = '.' then acc2 ++ [cols] else acc2

/-- Python `grid_values(grid)`: scan the input with `gv_step`; the
`assert len(chars) == 81` failure is modelled as `none`. -/
def grid_values (grid : List Char) : Option Grid :=
  let chars : List (List Char) := grid.foldl gv_step []
  if chars.length = 81 then some (boxes.zip chars) else none

/-- The body of the `for digit in cols` loop of `only_choice`. -/
def oc_digit (st : St) (unit : List String) (digit : Char) : St :=
  match unit.filter (fun box => (lookup st.values box).contains digit) with
  | [b] => assign_value st b [digit]
  | _ => st

/-- Python `only_choice(values)`. -/
def only_choice (st : St) : St :=
  unitlist.foldl (fun st unit => cols.foldl (fun st digit => oc_digit st unit digit) st) st

/-- One pass of `reduce_puzzle`: `eliminate`, then `naked_twins`, then
`only_choice`. -/
def reduce_pass (st : St) : St := only_choice (naked_twins (eliminate st))

/-- Python: `len([box for box in values.keys() if len(values[box]) == 1])`. -/
def solvedCount (g : Grid) : Nat := (s_values g).length

/-- Python: `len([box for box in values.keys() if len(values[box]) == 0])`. -/
def emptyCount (g : Grid) : Nat := ((g.filter (fun p => p.2.length == 0)).map Prod.fst).length

/-- Python `reduce_puzzle(values)`: iterate passes until the solved count is
unchanged, returning `none` (Python `False`) as soon as a box is emptied.
The fuel only bounds the number of passes; every theorem quantifies over it. -/
def reduce_puzzle : Nat → St → Option Grid × List Grid
  | 0, st => (none, st.assignments)
  | fuel + 1, st =>
    let solved_values_before := solvedCount st.values
    let st1 := reduce_pass st
    let solved_values_after := solvedCount st1.values
    if emptyCount st1.values ≠ 0 then (none, st1.assignments)
    else if solved_values_before = solved_values_after then (some st1.values, st1.assignments)
    else reduce_puzzle fuel st1

/-- A kernel-computable decision procedure for the standard lexicographic
string order (the default instance compares through `String.ltb`, which the
kernel cannot evaluate); the ordering itself is unchanged. -/
instance decStrLt (a b : String) : Decidable (a < b) :=
  decidable_of_iff (a.toList < b.toList) (String.lt_iff_toList_lt).symm

/-- The comparison used by Python `min` on `(len, box)` pairs: lexicographic
on the number, then on the label string. -/
def pairLt (y x : Nat × String) : Bool := y.1 < x.1 || (y.1 == x.1 && y.2 < x.2)

/-- Python `min(iterable)` on such pairs (first minimum wins ties, which with
the lexicographic pair order means the smallest label). -/
def pyMin : List (Nat × String) → Option (Nat × String)
  | [] => none
  | x :: xs => some (xs.foldl (fun acc y => if pairLt y acc then y else acc) x)

/-- The generator `((len(values[s]), s) for s in boxes if len(values[s]) > 1)`. -/
def branch_candidates (values : Grid) : List (Nat × String) :=
  (boxes.filter (fun s => 1 < (lookup values s).length)).map
    (fun s => ((lookup values s).length, s))

/-- Python line 230: `n, s = min((len(values[s]), s) for s in boxes if len(values[s]) > 1)`. -/
def choose_box (values : Grid) : Option (Nat × String) := pyMin (branch_candidates values)

/-- The body of Python `search(values)`: propagate, stop on failure or on a
fully solved board, otherwise branch on the minimum-candidate box, trying its
digits in order with first-success short-circuit.  `values.copy()` is the
identity in this value-level model; the global `assignments` log survives
failed branches.  `recur` is the recursive call. -/
def search_step (fuel : Nat) (recur : St → Option Grid × List Grid) (st : St) :
    Option Grid × List Grid :=
  match reduce_puzzle (fuel + 1) st with
  | (none, log) => (none, log)
  | (some values, log) =>
    if boxes.all (fun s => (lookup values s).length == 1) then (some values, log)
    else
      match choose_box values with
      | none => (none, log)
      | some (_, s) =>
        (lookup values s).foldl
          (fun acc c =>
            match acc with
            | (some v, log1) => (some v, log1)
            | (none, log1) => recur (assign_value ⟨values, log1⟩ s [c]))
          (none, log)

/-- Python `search(values)`, with structural fuel. -/
def search : Nat → St → Option Grid × List Grid
  | 0, st => (none, st.assignments)
  | fuel + 1, st => search_step fuel (search fuel) st

/-- Python `solve(grid)`: parse then search.  The global `assignments` list
in force when `solve` is called is passed in as `log`; a parse failure
(`AssertionError`) leaves it untouched and produces no grid. -/
def solve (fuel : Nat) (grid : List Char) (log : List Grid) : Option Grid × List Grid :=
  match grid_values grid with
  | none => (none, log)
  | some g => search fuel ⟨g, log⟩

/-- Build a concrete board: every box not listed gets the full candidate
string, the listed ones get the given string (used for concrete test boards). -/
def gridOf (assocs : List (String × String)) : Grid :=
  boxes.map (fun b =>
    (b, (((assocs.find? (fun p => p.1 == b)).map Prod.snd).getD "123456789").toList))

/-! ### Basic facts about `lookup`, `gset` and `keys` -/

theorem keys_gset (g : Grid) (b : String) (v : List Char) : keys (gset g b v) = keys g := by
  induction g with
  | nil => rfl
  | cons p rest ih =>
    by_cases h : p.1 = b <;> simp [gset, keys, h] <;> simpa [keys] using ih

theorem mem_keys_cons (p : String × List Char) (rest : Grid) (b : String) :
    b ∈ keys (p :: rest) ↔ p.1 = b ∨ b ∈ keys rest := by
  simp [keys, eq_comm]

theorem lookup_gset_ne (g : Grid) (b c : String) (v : List Char) (h : c ≠ b) :
    lookup (gset g b v) c = lookup g c := by
  induction g with
  | nil => rfl
  | cons p rest ih =>
    by_cases hb : p.1 = b
    · have hc : ¬ p.1 = c := fun hh => h (by rw [← hh, hb])
      rw [gset, if_pos hb, lookup, lookup, if_neg (by simpa [hb] using hc), if_neg hc, ih]
    · by_cases hc : p.1 = c
      · rw [gset, if_neg hb, lookup, lookup, if_pos hc, if_pos hc]
      · rw [gset, if_neg hb, lookup, lookup, if_neg hc, if_neg hc, ih]

theorem lookup_gset_self (g : Grid) (b : String) (v : List Char) (h : b ∈ keys g) :
    lookup (gset g b v) b = v := by
  induction g with
  | nil => simp [keys] at h
  | cons p rest ih =>
    by_cases hb : p.1 = b
    · rw [gset, if_pos hb, lookup, if_pos hb]
    · have hmem : b ∈ keys rest := by
        rcases (mem_keys_cons p rest b).mp h with h1 | h1
        · exact absurd h1 hb
        · exact h1
      rw [gset, if_neg hb, lookup, if_neg hb, ih hmem]

theorem lookup_gset_not_mem (g : Grid) (b : String) (v : List Char) (h : b ∉ keys g) :
    lookup (gset g b v) b = lookup g b := by
  induction g with
  | nil => rfl
  | cons p rest ih =>
    have hb : ¬ p.1 = b := fun hh => h ((mem_keys_cons p rest b).mpr (Or.inl hh))
    have hrest : b ∉ keys rest := fun hh => h ((mem_keys_cons p rest b).mpr (Or.inr hh))
    simp only [gset, if_neg hb, lookup]
    exact ih hrest

theorem gs_step (g : Grid) (b c : String) (v : List Char) (h : List.Sublist v (lookup g b)) :
    List.Sublist (lookup (gset g b v) c) (lookup g c) := by
  by_cases hc : c = b
  · subst hc
    by_cases hm : c ∈ keys g
    · rw [lookup_gset_self g c v hm]; exact h
    · rw [lookup_gset_not_mem g c v hm]
  · rw [lookup_gset_ne g b c v hc]

theorem lookup_eq_nil_of_not_mem (g : Grid) (b : String) (h : b ∉ keys g) :
    lookup g b = [] := by
  induction g with
  | nil => rfl
  | cons p rest ih =>
    have hb : ¬ p.1 = b := fun hh => h ((mem_keys_cons p rest b).mpr (Or.inl hh))
    have hrest : b ∉ keys rest := fun hh => h ((mem_keys_cons p rest b).mpr (Or.inr hh))
    simp [lookup, hb, ih hrest]

/-- Extensionality for boards: same keys (without duplicates) and same
lookups force equality as association lists. -/
theorem grid_ext (g1 g2 : Grid) (hk : keys g1 = keys g2) (hnd : (keys g1).Nodup)
    (hl : ∀ b, lookup g1 b = lookup g2 b) : g1 = g2 := by
  induction g1 generalizing g2 with
  | nil => cases g2 with
    | nil => rfl
    | cons q rest => simp [keys] at hk
  | cons p rest ih =>
    cases g2 with
    | nil => simp [keys] at hk
    | cons q rest2 =>
      simp only [keys, List.map_cons, List.cons.injEq] at hk
      obtain ⟨hk1, hk2⟩ := hk
      have hv : p.2 = q.2 := by
        have := hl p.1
        simpa [lookup, hk1] using this
      have hnd2 : (keys rest).Nodup := (List.nodup_cons.mp (by simpa [keys] using hnd)).2
      have hni : p.1 ∉ keys rest := (List.nodup_cons.mp (by simpa [keys] using hnd)).1
      have hrest : rest = rest2 := by
        refine ih rest2 hk2 hnd2 fun b => ?_
        by_cases hb : p.1 = b
        · subst hb
          have hni2 : p.1 ∉ keys rest2 := by
            intro hmem
            exact hni (by simpa [keys, hk2] using hmem)
          rw [lookup_eq_nil_of_not_mem rest _ hni, lookup_eq_nil_of_not_mem rest2 _ hni2]
        · have := hl b
          simpa [lookup, hb, hk1 ▸ hb] using this
      exact by
        cases p; cases q
        simp only at hk1 hv
        simp [hk1, hv, hrest]

/-! ### Facts about `pyReplace` -/

theorem replGo_sublist (n : Nat) (s : List Char) (o : Char) (os : List Char) :
    List.Sublist (replGo n s o os) s := by
  induction n generalizing s with
  | zero => cases s <;> simp [replGo]
  | succ n ih =>
    cases s with
    | nil => simp [replGo]
    | cons c rest =>
      simp only [replGo]
      by_cases h : (o :: os).isPrefixOf (c :: rest)
      · simp only [h, if_pos]
        exact ((ih _).trans (List.drop_sublist _ _)).trans (List.sublist_cons_self c rest)
      · simp only [h, if_neg]
        simpa using List.Sublist.cons₂ c (ih rest)

theorem pyReplace_sublist (s old : List Char) : List.Sublist (pyReplace s old) s := by
  cases old with
  | nil => simp [pyReplace]
  | cons o os => exact replGo_sublist _ _ _ _

theorem replGo_singleton (c : Char) (n : Nat) (s : List Char) (hn : s.length ≤ n) :
    replGo n s c [] = s.filter (fun x => x ≠ c) := by
  induction n generalizing s with
  | zero => cases s with
    | nil => simp [replGo]
    | cons a rest => simp at hn
  | succ n ih =>
    cases s with
    | nil => simp [replGo]
    | cons a rest =>
      have hlen : rest.length ≤ n := by simpa using hn
      have hpre : ([c] : List Char).isPrefixOf (a :: rest) = (c == a) := by
        simp [List.isPrefixOf]
      simp only [replGo, hpre, List.drop_zero]
      by_cases h : c = a
      · subst h
        simp [ih rest hlen]
      · have hb : (c == a) = false := by simpa using h
        simp [hb, ih rest hlen, Ne.symm h]

theorem pyReplace_singleton (s : List Char) (c : Char) :
    pyReplace s [c] = s.filter (fun x => x ≠ c) :=
  replGo_singleton c s.length s le_rfl

/-- Removing one occurrence list then looking for equality with a list that
contains the removed character always fails. -/
theorem filter_ne_of_mem (v d : List Char) (c : Char) (hc : c ∈ d) :
    v.filter (fun x => x ≠ c) ≠ d := by
  intro h
  have : c ∈ v.filter (fun x => x ≠ c) := h ▸ hc
  simp at this

/-! ### Monotonicity: every operation only removes candidates -/

/-- `GS g1 g2`: pointwise, each candidate string of `g1` is a sublist of the
corresponding string of `g2` (the board only shrank). -/
def GS (g1 g2 : Grid) : Prop := ∀ b, List.Sublist (lookup g1 b) (lookup g2 b)

theorem GS_refl (g : Grid) : GS g g := fun _ => List.Sublist.refl _

theorem GS_trans {a b c : Grid} (h1 : GS a b) (h2 : GS b c) : GS a c :=
  fun x => (h1 x).trans (h2 x)

/-- Pointwise antisymmetry of the shrinking order. -/
theorem GS_antisymm {a b : Grid} (h1 : GS a b) (h2 : GS b a) :
    ∀ x, lookup a x = lookup b x :=
  fun x => (h1 x).antisymm (h2 x)

theorem assign_value_values (st : St) (b : String) (v : List Char) :
    (assign_value st b v).values = gset st.values b v := by
  by_cases h : v.length = 1 <;> simp [assign_value, h]

theorem keys_assign_value (st : St) (b : String) (v : List Char) :
    keys (assign_value st b v).values = keys st.values := by
  rw [assign_value_values, keys_gset]

theorem assign_value_GS (st : St) (b : String) (v : List Char)
    (h : List.Sublist v (lookup st.values b)) : GS (assign_value st b v).values st.values := by
  rw [assign_value_values]
  exact fun c => gs_step st.values b c v h

theorem foldl_GS {α : Type} (f : St → α → St) (l : List α)
    (h : ∀ s a, a ∈ l → GS (f s a).values s.values) (st : St) :
    GS (l.foldl f st).values st.values := by
  induction l generalizing st with
  | nil => exact GS_refl _
  | cons a rest ih =>
    exact GS_trans
      (ih (fun s x hx => h s x (List.mem_cons_of_mem a hx)) (f st a))
      (h st a (List.mem_cons_self a rest))

theorem foldl_keys {α : Type} (f : St → α → St) (l : List α)
    (h : ∀ s a, a ∈ l → keys (f s a).values = keys s.values) (st : St) :
    keys (l.foldl f st).values = keys st.values := by
  induction l generalizing st with
  | nil => rfl
  | cons a rest ih =>
    rw [List.foldl_cons, ih (fun s x hx => h s x (List.mem_cons_of_mem a hx)),
      h st a (List.mem_cons_self a rest)]

theorem elimBox_GS (st : St) (box : String) : GS (elimBox st box).values st.values := by
  unfold elimBox
  exact foldl_GS _ _ (fun s p _ => assign_value_GS s p _ (pyReplace_sublist _ _)) st

theorem eliminate_order_GS (ord : List String) (st : St) :
    GS (eliminate_order ord st).values st.values :=
  foldl_GS _ _ (fun s b _ => elimBox_GS s b) st

theorem eliminate_GS (st : St) : GS (eliminate st).values st.values :=
  eliminate_order_GS _ st

theorem nt_unit_GS (st : St) (unit : List String) : GS (nt_unit st unit).values st.values := by
  unfold nt_unit
  refine foldl_GS _ _ (fun s numbers _ => ?_) st
  refine foldl_GS _ _ (fun s2 number _ => ?_) s
  refine foldl_GS _ _ (fun s3 box _ => ?_) s2
  by_cases hg : lookup s3.values box ≠ numbers
  · simpa [hg] using assign_value_GS s3 box _ (pyReplace_sublist _ _)
  · simpa [hg] using GS_refl s3.values

theorem naked_twins_GS (st : St) : GS (naked_twins st).values st.values :=
  foldl_GS _ _ (fun s u _ => nt_unit_GS s u) st

theorem oc_digit_GS (st : St) (unit : List String) (digit : Char) :
    GS (oc_digit st unit digit).values st.values := by
  unfold oc_digit
  cases hf : unit.filter (fun box => (lookup st.values box).contains digit) with
  | nil => exact GS_refl _
  | cons b rest =>
    cases rest with
    | nil =>
      have hb : b ∈ unit.filter (fun box => (lookup st.values box).contains digit) := by
        rw [hf]; exact List.mem_cons_self _ _
      have hdig : digit ∈ lookup st.values b := List.elem_iff.mp (List.mem_filter.mp hb).2
      exact assign_value_GS st b _ (List.singleton_sublist.mpr hdig)
    | cons c rest2 => exact GS_refl _

theorem only_choice_GS (st : St) : GS (only_choice st).values st.values := by
  unfold only_choice
  refine foldl_GS _ _ (fun s u _ => ?_) st
  exact foldl_GS _ _ (fun s2 d _ => oc_digit_GS s2 u d) s

theorem reduce_pass_GS (st : St) : GS (reduce_pass st).values st.values :=
  GS_trans (only_choice_GS _) (GS_trans (naked_twins_GS _) (eliminate_GS st))

theorem reduce_puzzle_unfold (fuel : Nat) (st : St) :
    reduce_puzzle (fuel + 1) st =
      (if emptyCount (reduce_pass st).values ≠ 0 then
        ((none : Option Grid), (reduce_pass st).assignments)
      else if solvedCount st.values = solvedCount (reduce_pass st).values then
        (some (reduce_pass st).values, (reduce_pass st).assignments)
      else reduce_puzzle fuel (reduce_pass st)) := rfl

theorem reduce_puzzle_GS (fuel : Nat) (st : St) (v : Grid)
    (h : (reduce_puzzle fuel st).1 = some v) : GS v st.values := by
  induction fuel generalizing st with
  | zero => simp [reduce_puzzle] at h
  | succ fuel ih =>
    simp only [reduce_puzzle] at h
    split at h
    · simp at h
    · split at h
      · have hv : (reduce_pass st).values = v := by simpa using h
        exact hv ▸ reduce_pass_GS st
      · exact GS_trans (ih _ h) (reduce_pass_GS st)

/-! ### Key preservation through the operations -/

theorem elimBox_keys (st : St) (box : String) :
    keys (elimBox st box).values = keys st.values := by
  unfold elimBox
  exact foldl_keys _ _ (fun s p _ => keys_assign_value s p _) st

theorem eliminate_order_keys (ord : List String) (st : St) :
    keys (eliminate_order ord st).values = keys st.values :=
  foldl_keys _ _ (fun s b _ => elimBox_keys s b) st

theorem eliminate_keys (st : St) : keys (eliminate st).values = keys st.values :=
  eliminate_order_keys _ st

theorem nt_unit_keys (st : St) (unit : List String) :
    keys (nt_unit st unit).values = keys st.values := by
  unfold nt_unit
  refine foldl_keys _ _ (fun s numbers _ => ?_) st
  refine foldl_keys _ _ (fun s2 number _ => ?_) s
  refine foldl_keys _ _ (fun s3 box _ => ?_) s2
  by_cases hg : lookup s3.values box ≠ numbers
  · simp [hg, keys_assign_value]
  · simp [hg]

theorem naked_twins_keys (st : St) : keys (naked_twins st).values = keys st.values :=
  foldl_keys _ _ (fun s u _ => nt_unit_keys s u) st

theorem oc_digit_keys (st : St) (unit : List String) (digit : Char) :
    keys (oc_digit st unit digit).values = keys st.values := by
  unfold oc_digit
  cases hf : unit.filter (fun box => (lookup st.values box).contains digit) with
  | nil => rfl
  | cons b rest =>
    cases rest with
    | nil => exact keys_assign_value st b _
    | cons c rest2 => rfl

theorem only_choice_keys (st : St) : keys (only_choice st).values = keys st.values := by
  unfold only_choice
  refine foldl_keys _ _ (fun s u _ => ?_) st
  exact foldl_keys _ _ (fun s2 d _ => oc_digit_keys s2 u d) s

theorem reduce_pass_keys (st : St) : keys (reduce_pass st).values = keys st.values := by
  unfold reduce_pass
  rw [only_choice_keys, naked_twins_keys, eliminate_keys]

theorem reduce_puzzle_keys (fuel : Nat) (st : St) (v : Grid)
    (h : (reduce_puzzle fuel st).1 = some v) : keys v = keys st.values := by
  induction fuel generalizing st with
  | zero => simp [reduce_puzzle] at h
  | succ fuel ih =>
    simp only [reduce_puzzle] at h
    split at h
    · simp at h
    · split at h
      · have hv : (reduce_pass st).values = v := by simpa using h
        rw [← hv, reduce_pass_keys]
      · rw [ih _ h, reduce_pass_keys]

/-! ### C9: how many units contain a given cell -/

/-- C9 counterexample: the claim says every one of the 81 cells belongs to
exactly 4 units, but the cell A2 (present in `boxes`) lies on no diagonal and
belongs to only 3 units (its row, column and box). -/
theorem C9_counterexample :
    ("A2") ∈ boxes ∧ (units ("A2")).length = 3 := by decide

set_option maxRecDepth 10000 in
/-- C9 (amended): every cell belongs to 3, 4 or 5 units: its row, its column,
its box, plus one unit for each diagonal through it (0, 1 or 2); the count is
exactly 4 only for cells lying on exactly one diagonal. -/
theorem C9_units_count :
    ∀ s ∈ boxes,
      (units s).length = 3 + (diagonals_u.filter (fun u => u.contains s)).length := by
  decide

set_option maxRecDepth 10000 in
/-- Witness for `C9_units_count` at the corner cell A1. -/
theorem C9_units_count_witness :
    ("A1") ∈ boxes ∧
      (units ("A1")).length =
        3 + (diagonals_u.filter (fun u => u.contains ("A1"))).length :=
  ⟨by decide, C9_units_count ("A1") (by decide)⟩

/-! ### C2: what `grid_values` accepts and rejects -/

/-- The characters `grid_values` keeps: the digits and the dot. -/
def validChar (c : Char) : Bool := cols.contains c || c = '.'

theorem gv_step_length (acc : List (List Char)) (c : Char) :
    (gv_step acc c).length = acc.length + (if validChar c then 1 else 0) := by
  have hdotmem : ('.') ∉ cols := by decide
  unfold gv_step validChar
  by_cases hc : c ∈ cols
  · have hcb : cols.contains c = true := by simpa using hc
    have hd : ¬ c = '.' := fun h => hdotmem (h ▸ hc)
    simp [hc, hcb, hd]
  · have hcb : ¬ (cols.contains c = true) := by simpa using hc
    by_cases hd : c = '.' <;> simp [hc, hcb, hd, hdotmem]

theorem grid_values_chars_length (s : List Char) (acc : List (List Char)) :
    (s.foldl gv_step acc).length = acc.length + s.countP validChar := by
  induction s generalizing acc with
  | nil => simp
  | cons c rest ih =>
    rw [List.foldl_cons, ih, gv_step_length, List.countP_cons]
    by_cases hv : validChar c = true
    · simp [hv]
      omega
    · simp [hv]

/-- C2 (amended): `grid_values` fails exactly when the number of characters
that are a digit 1-9 or a dot differs from 81.  Invalid characters are
silently skipped and the raw length is never checked, so a string of length
80 (at most 80 valid characters) or of length 81 containing an X (at most 80
valid characters) is rejected, but a longer string can be accepted despite
containing invalid characters. -/
theorem C2_grid_values_iff (s : List Char) :
    grid_values s = none ↔ s.countP validChar ≠ 81 := by
  have hlen : (s.foldl gv_step []).length = s.countP validChar := by
    rw [grid_values_chars_length]; simp
  show (if (s.foldl gv_step []).length = 81 then
      some ((boxes.zip (s.foldl gv_step []) : Grid)) else none) = none ↔ _
  rw [hlen]
  by_cases h : s.countP validChar = 81
  · rw [if_pos h]; simp [h]
  · rw [if_neg h]; simp [h]

set_option maxRecDepth 40000 in
/-- C2 counterexample: the claim says every input that is not exactly 81
characters long, or that contains a character other than the digits and the
dot, is rejected before solving.  This 82-character input containing an X is
parsed successfully. -/
theorem C2_counterexample :
    (List.replicate 81 '.' ++ ['X']).length ≠ 81 ∧
    ('X') ∈ (List.replicate 81 '.' ++ ['X']) ∧
    (grid_values (List.replicate 81 '.' ++ ['X'])).isSome = true := by
  refine ⟨by decide, by simp, by decide⟩

/-! ### C5: reference semantics of `assign_value` -/

/-- Python reference semantics of `assign_value`: the caller's `values` is a
reference into a heap of boards; `values[box] = value` mutates the referenced
board in place, and the function returns the same reference (plus the
possibly extended global log).  Result: (heap, log, returned reference). -/
def assign_value_ref (heap log : List Grid) (r : Nat) (box : String) (value : List Char) :
    List Grid × List Grid × Nat :=
  let g := (heap[r]?).getD []
  let g2 := gset g box value
  (heap.set r g2, if value.length = 1 then log ++ [g2] else log, r)

/-- The all-candidates starting board (no clue anywhere). -/
def c5g : Grid := gridOf []

/-- C5 counterexample: the claim says `assign_value` returns a new grid and
never aliases its input, leaving the input grid intact.  In fact it returns
the very reference it was given (reference 0 here) and the board stored at
that reference has been mutated: the input grid value is not intact. -/
theorem C5_counterexample :
    (assign_value_ref [c5g] [] 0 ("A1") ['7']).2.2 = 0 ∧
    (assign_value_ref [c5g] [] 0 ("A1") ['7']).1[0]? ≠ some c5g := by
  constructor
  · rfl
  · decide

/-- C5 (amended): `assign_value` mutates the referenced board in place —
after the call the same reference is returned, the heap cell now holds the
updated board in which `box` maps to the singleton `[digit]` and every other
box is unchanged, and no other heap cell is touched. -/
theorem C5_assign_value_ref_spec (heap log : List Grid) (r : Nat) (box : String)
    (digit : Char) (g : Grid) (hr : heap[r]? = some g) (hb : box ∈ keys g) :
    (assign_value_ref heap log r box [digit]).2.2 = r ∧
    (assign_value_ref heap log r box [digit]).1[r]? = some (gset g box [digit]) ∧
    lookup (gset g box [digit]) box = [digit] ∧
    (∀ b, b ≠ box → lookup (gset g box [digit]) b = lookup g b) ∧
    (∀ i, i ≠ r → (assign_value_ref heap log r box [digit]).1[i]? = heap[i]?) := by
  have hlt : r < heap.length := (List.getElem?_eq_some.mp hr).1
  refine ⟨rfl, ?_, ?_, ?_, ?_⟩
  · show (heap.set r _)[r]? = _
    rw [List.getElem?_set_self', hr]
    simp [assign_value_ref, hr]
  · exact lookup_gset_self g box [digit] hb
  · exact fun b hne => lookup_gset_ne g box b [digit] hne
  · intro i hi
    show (heap.set r _)[i]? = _
    exact List.getElem?_set_ne (fun h => hi h.symm)

/-- Witness board and call for `C5_assign_value_ref_spec`. -/
theorem C5_assign_value_ref_spec_witness :
    (assign_value_ref [c5g] [] 0 ("A1") ['7']).2.2 = 0 ∧
    (assign_value_ref [c5g] [] 0 ("A1") ['7']).1[0]? = some (gset c5g ("A1") ['7']) ∧
    lookup (gset c5g ("A1") ['7']) ("A1") = ['7'] := by
  have h := C5_assign_value_ref_spec [c5g] [] 0 ("A1") '7' c5g (by rfl) (by decide)
  exact ⟨h.1, h.2.1, h.2.2.1⟩

/-! ### C6: when a snapshot is appended to `assignments` -/

/-- The board with the two consistent clues A1=1 and A2=2. -/
def c6g : Grid := gridOf [("A1", "1"), ("A2", "2")]

set_option maxRecDepth 10000 in
/-- C6: the claim (and the docstring of `assign_value`, "If it updates the
board record it") says a snapshot is appended exactly once per cell
resolution, and never for a cell that does not become newly solved.  Running
`eliminate` on a board whose only solved cells are A1=1 and A2=2 appends two
snapshots — one when A2's unchanged singleton is re-assigned while processing
A1's peers and one symmetrically for A1 — although the set of solved cells
does not change and neither cell's value changes. -/
theorem C6_spurious_events :
    (eliminate ⟨c6g, []⟩).assignments.length = 2 ∧
    s_values (eliminate ⟨c6g, []⟩).values = s_values c6g ∧
    lookup (eliminate ⟨c6g, []⟩).values ("A1") = ['1'] ∧
    lookup (eliminate ⟨c6g, []⟩).values ("A2") = ['2'] := by
  decide

/-! ### C8: order dependence of `eliminate` -/

/-- The board with two conflicting clues: A1 and A2 both fixed to 5. -/
def c8g : Grid := gridOf [("A1", "5"), ("A2", "5")]

set_option maxRecDepth 40000 in
/-- C8 counterexample: the claim says `eliminate` yields the same grid for
every permutation of the solved-cell processing order.  On a board where A1
and A2 are both 5, processing [A1, A2] (the dict order) and the permutation
[A2, A1] yield different grids: whichever of the two conflicting cells is
processed first erases the other before that other's digit is propagated. -/
theorem C8_counterexample :
    s_values c8g = [("A1"), ("A2")] ∧
    List.Perm [("A2"), ("A1")] (s_values c8g) ∧
    (eliminate_order [("A2"), ("A1")] ⟨c8g, []⟩).values ≠
      (eliminate_order (s_values c8g) ⟨c8g, []⟩).values := by
  refine ⟨by decide, ?_, by decide⟩
  have h : s_values c8g = [("A1"), ("A2")] := by decide
  rw [h]
  exact List.Perm.swap _ _ _

theorem lookup_of_mem (g : Grid) (b : String) (v : List Char)
    (hm : (b, v) ∈ g) (hnd : (keys g).Nodup) : lookup g b = v := by
  induction g with
  | nil => simp at hm
  | cons p rest ih =>
    rcases List.mem_cons.mp hm with h | h
    · subst h
      simp [lookup]
    · have hnd2 : (keys rest).Nodup := (List.nodup_cons.mp (by simpa [keys] using hnd)).2
      have hni : p.1 ∉ keys rest := (List.nodup_cons.mp (by simpa [keys] using hnd)).1
      have hb : ¬ p.1 = b := by
        intro he
        exact hni (he ▸ (by simpa [keys] using List.mem_map_of_mem Prod.fst h))
      simp only [lookup, if_neg hb]
      exact ih h hnd2

theorem s_values_mem (g : Grid) (hnd : (keys g).Nodup) (p : String) (hp : p ∈ s_values g) :
    p ∈ keys g ∧ (lookup g p).length = 1 := by
  obtain ⟨pr, hpr, hfst⟩ := List.mem_map.mp hp
  obtain ⟨hmem, hlen⟩ := List.mem_filter.mp hpr
  subst hfst
  refine ⟨by simpa [keys] using List.mem_map_of_mem Prod.fst hmem, ?_⟩
  rw [lookup_of_mem g pr.1 pr.2 hmem hnd]
  simpa using hlen

theorem boxes_nodup : (boxes).Nodup := by decide

set_option maxRecDepth 10000 in
theorem units_all_boxes : ∀ u ∈ unitlist, ∀ b ∈ u, b ∈ boxes := by decide

theorem peers_subset_boxes (p : String) (q : String) (hq : q ∈ peers p) : q ∈ boxes := by
  obtain ⟨hj, hne⟩ := List.mem_filter.mp hq
  obtain ⟨u, hu, hqu⟩ := List.mem_flatten.mp (List.mem_dedup.mp hj)
  exact units_all_boxes u (List.mem_filter.mp hu).1 q hqu

/-- No two solved cells that are peers carry the same digit. -/
def noConflict (g : Grid) : Prop :=
  ∀ p ∈ s_values g, ∀ q ∈ s_values g, q ∈ peers p → lookup g p ≠ lookup g q

instance (g : Grid) : Decidable (noConflict g) := by unfold noConflict; infer_instance

/-- The board obtained from `g` after the digits of the already processed
solved cells `done` have been struck from their peers. -/
def elimRes (g : Grid) (done : List String) (b : String) : List Char :=
  (lookup g b).filter
    (fun c => done.all (fun q => !(decide (b ∈ peers q ∧ lookup g q = [c]))))

theorem filter_filter_self {α : Type} (l : List α) (p : α → Bool) :
    (l.filter p).filter p = l.filter p := by
  rw [List.filter_filter]
  exact List.filter_congr (fun a _ => by cases h : p a <;> simp [h])

theorem elim_inner_lookup (plist : List String) (d : Char) (st : St)
    (hsub : ∀ x ∈ plist, x ∈ keys st.values) :
    ∀ b, lookup ((plist.foldl (fun st2 peer =>
        assign_value st2 peer (pyReplace (lookup st2.values peer) [d])) st)).values b =
      if b ∈ plist then (lookup st.values b).filter (fun c => c ≠ d)
      else lookup st.values b := by
  induction plist generalizing st with
  | nil => intro b; simp
  | cons p rest ih =>
    intro b
    rw [List.foldl_cons]
    have hpk : p ∈ keys st.values := hsub p (List.mem_cons_self _ _)
    have hlook : ∀ x, lookup (assign_value st p (pyReplace (lookup st.values p) [d])).values x =
        if x = p then (lookup st.values p).filter (fun c => c ≠ d) else lookup st.values x := by
      intro x
      rw [assign_value_values]
      by_cases hx : x = p
      · subst hx
        rw [if_pos rfl, lookup_gset_self _ _ _ hpk, pyReplace_singleton]
      · rw [if_neg hx, lookup_gset_ne _ _ _ _ hx]
    have hsub2 : ∀ x ∈ rest,
        x ∈ keys (assign_value st p (pyReplace (lookup st.values p) [d])).values := by
      intro x hx
      rw [keys_assign_value]
      exact hsub x (List.mem_cons_of_mem _ hx)
    rw [ih _ hsub2 b, hlook b]
    by_cases hbr : b ∈ rest
    · rw [if_pos hbr, if_pos (List.mem_cons_of_mem _ hbr)]
      by_cases hbp : b = p
      · rw [if_pos hbp, filter_filter_self, hbp]
      · rw [if_neg hbp]
    · rw [if_neg hbr]
      by_cases hbp : b = p
      · rw [if_pos hbp, if_pos (hbp ▸ List.mem_cons_self p rest), hbp]
      · rw [if_neg hbp, if_neg (by simp [hbp, hbr])]

theorem elimRes_nil (g : Grid) (b : String) : elimRes g [] b = lookup g b := by
  unfold elimRes
  simp

theorem elimRes_snoc (g : Grid) (done : List String) (p : String) (d : Char)
    (hp : lookup g p = [d]) (b : String) :
    elimRes g (done ++ [p]) b =
      if b ∈ peers p then (elimRes g done b).filter (fun c => c ≠ d)
      else elimRes g done b := by
  unfold elimRes
  by_cases hb : b ∈ peers p
  · rw [if_pos hb, List.filter_filter]
    refine List.filter_congr (fun c _ => ?_)
    rw [List.all_append, List.all_cons, List.all_nil, hp]
    by_cases hcd : c = d
    · have h1 : (decide (b ∈ peers p ∧ ([d] : List Char) = [c])) = true :=
        decide_eq_true ⟨hb, by rw [hcd]⟩
      have h2 : (decide (c = d)) = true := decide_eq_true hcd
      simp only [h1, h2, decide_not, Bool.not_true, Bool.not_false, Bool.and_true,
        Bool.true_and, Bool.and_false, Bool.false_and]
    · have hne : ¬ (b ∈ peers p ∧ ([d] : List Char) = [c]) := by
        rintro ⟨h1, h2⟩
        exact hcd (by simpa using h2.symm)
      have h1 : (decide (b ∈ peers p ∧ ([d] : List Char) = [c])) = false := decide_eq_false hne
      have h2 : (decide (c = d)) = false := decide_eq_false hcd
      simp only [h1, h2, decide_not, Bool.not_true, Bool.not_false, Bool.and_true,
        Bool.true_and, Bool.and_false, Bool.false_and]
  · rw [if_neg hb]
    refine List.filter_congr (fun c _ => ?_)
    rw [List.all_append, List.all_cons, List.all_nil, hp]
    have h1 : (decide (b ∈ peers p ∧ ([d] : List Char) = [c])) = false :=
      decide_eq_false (by rintro ⟨hc1, hc2⟩; exact hb hc1)
    simp only [h1, Bool.not_true, Bool.not_false, Bool.and_true, Bool.true_and,
      Bool.and_false, Bool.false_and]

theorem elimRes_perm (g : Grid) (d1 d2 : List String) (hperm : d1.Perm d2) (b : String) :
    elimRes g d1 b = elimRes g d2 b := by
  unfold elimRes
  refine List.filter_congr (fun c _ => ?_)
  cases h : d1.all (fun q => !(decide (b ∈ peers q ∧ lookup g q = [c]))) with
  | true =>
    have := List.all_eq_true.mp h
    exact (List.all_eq_true.mpr (fun x hx => this x (hperm.mem_iff.mpr hx))).symm
  | false =>
    rcases List.all_eq_false.mp h with ⟨x, hx, hfx⟩
    exact ((List.all_eq_false.mpr ⟨x, hperm.mem_iff.mp hx, hfx⟩)).symm

theorem elim_order_char (g : Grid) (hk : keys g = boxes) (hnc : noConflict g) :
    ∀ (ord done : List String) (st : St),
      (∀ x ∈ ord, x ∈ s_values g) → (∀ x ∈ done, x ∈ s_values g) →
      keys st.values = boxes →
      (∀ b, lookup st.values b = elimRes g done b) →
      ∀ b, lookup (eliminate_order ord st).values b = elimRes g (done ++ ord) b := by
  intro ord
  induction ord with
  | nil =>
    intro done st _ _ _ hpt b
    simpa using hpt b
  | cons p rest ih =>
    intro done st hord hdone hkeys hpt b
    have hnd : (keys g).Nodup := hk ▸ boxes_nodup
    have hpsv : p ∈ s_values g := hord p (List.mem_cons_self _ _)
    obtain ⟨hpkeys, hplen⟩ := s_values_mem g hnd p hpsv
    obtain ⟨d, hd⟩ : ∃ d, lookup g p = [d] := by
      cases hl : lookup g p with
      | nil => rw [hl] at hplen; simp at hplen
      | cons c cs =>
        cases cs with
        | nil => exact ⟨c, rfl⟩
        | cons c2 cs2 => rw [hl] at hplen; simp at hplen
    have hdig : lookup st.values p = [d] := by
      rw [hpt p]
      unfold elimRes
      rw [hd]
      have hall : ∀ q ∈ done, (!(decide (p ∈ peers q ∧ lookup g q = [d]))) = true := by
        intro q hq
        have hqs := hdone q hq
        simp only [Bool.not_eq_eq_eq_not, Bool.not_true, decide_eq_false_iff_not]
        rintro ⟨hqp, hqd⟩
        exact hnc q hqs p hpsv hqp (by rw [hqd, hd])
      simp only [List.filter_cons, List.filter_nil]
      rw [if_pos (List.all_eq_true.mpr hall)]
    show lookup (eliminate_order rest (elimBox st p)).values b = _
    have hstep : ∀ x, lookup (elimBox st p).values x = elimRes g (done ++ [p]) x := by
      intro x
      unfold elimBox
      rw [hdig]
      have hsub : ∀ y ∈ peers p, y ∈ keys st.values := by
        intro y hy
        rw [hkeys]
        exact peers_subset_boxes p y hy
      rw [elim_inner_lookup (peers p) d st hsub x, elimRes_snoc g done p d hd x]
      by_cases hx : x ∈ peers p
      · rw [if_pos hx, if_pos hx, hpt x]
      · rw [if_neg hx, if_neg hx, hpt x]
    have := ih (done ++ [p]) (elimBox st p)
      (fun x hx => hord x (List.mem_cons_of_mem _ hx))
      (fun x hx => by
        rcases List.mem_append.mp hx with h | h
        · exact hdone x h
        · rw [List.mem_singleton.mp h]; exact hpsv)
      (by rw [elimBox_keys]; exact hkeys)
      hstep b
    rw [this]
    exact congrFun (congrArg (elimRes g) (by simp)) b

set_option maxRecDepth 10000 in
/-- C8 (amended): `eliminate` is confluent over the solved-cell processing
order only on boards whose solved cells are pairwise non-conflicting (no two
solved peers hold the same digit); then every permutation of the processing
order yields the dict-order result.  (On boards with a conflict among solved
peers the order matters, see the counterexample.) -/
theorem C8_eliminate_confluent (g : Grid) (L : List Grid) (ord : List String)
    (hk : keys g = boxes) (hnc : noConflict g) (hperm : ord.Perm (s_values g)) :
    (eliminate_order ord ⟨g, L⟩).values = (eliminate ⟨g, L⟩).values := by
  have hinit : ∀ b, lookup g b = elimRes g [] b := fun b => (elimRes_nil g b).symm
  have h1 : ∀ b, lookup (eliminate_order ord ⟨g, L⟩).values b = elimRes g ord b := by
    intro b
    simpa using elim_order_char g hk hnc ord [] ⟨g, L⟩
      (fun x hx => hperm.mem_iff.mp hx) (by simp) hk hinit b
  have h2 : ∀ b, lookup (eliminate ⟨g, L⟩).values b = elimRes g (s_values g) b := by
    intro b
    simpa using elim_order_char g hk hnc (s_values g) [] ⟨g, L⟩
      (fun x hx => hx) (by simp) hk hinit b
  refine grid_ext _ _ ?_ ?_ ?_
  · rw [eliminate_order_keys, eliminate_keys]
  · rw [eliminate_order_keys]
    exact hk ▸ boxes_nodup
  · intro b
    rw [h1 b, h2 b, elimRes_perm g ord (s_values g) hperm b]

/-- The non-conflicting two-clue board used as the confluence witness. -/
def c8w : Grid := gridOf [("A1", "1"), ("A2", "2")]

set_option maxRecDepth 40000 in
/-- Witness for `C8_eliminate_confluent` on a non-conflicting board with the
swapped processing order. -/
theorem C8_eliminate_confluent_witness :
    keys c8w = boxes ∧ noConflict c8w ∧
      List.Perm [("A2"), ("A1")] (s_values c8w) ∧
      (eliminate_order [("A2"), ("A1")] ⟨c8w, []⟩).values = (eliminate ⟨c8w, []⟩).values := by
  have hperm : List.Perm [("A2"), ("A1")] (s_values c8w) := by
    have h : s_values c8w = [("A1"), ("A2")] := by decide
    rw [h]
    exact List.Perm.swap _ _ _
  exact ⟨by decide, by decide, hperm,
    C8_eliminate_confluent c8w [] [("A2"), ("A1")] (by decide) (by decide) hperm⟩

/-! ### C7: the branching cell chosen by `search` -/

theorem pairLt_iff_lt (y x : Nat × String) : pairLt y x = true ↔ toLex y < toLex x := by
  rw [Prod.Lex.lt_iff]
  simp [pairLt]

theorem pyMin_fold_spec (xs : List (Nat × String)) (acc : Nat × String) :
    (xs.foldl (fun a y => if pairLt y a then y else a) acc ∈ acc :: xs) ∧
    ∀ z ∈ acc :: xs,
      ¬ toLex z < toLex (xs.foldl (fun a y => if pairLt y a then y else a) acc) := by
  induction xs generalizing acc with
  | nil =>
    refine ⟨List.mem_cons_self _ _, fun z hz => ?_⟩
    rcases List.mem_singleton.mp hz with rfl
    exact lt_irrefl _
  | cons y rest ih =>
    rw [List.foldl_cons]
    by_cases hp : pairLt y acc = true
    · rw [if_pos hp]
      obtain ⟨hmem, hmin⟩ := ih y
      refine ⟨?_, fun z hz => ?_⟩
      · rcases List.mem_cons.mp hmem with h | h
        · rw [h]; exact List.mem_cons_of_mem _ (List.mem_cons_self _ _)
        · exact List.mem_cons_of_mem _ (List.mem_cons_of_mem _ h)
      · rcases List.mem_cons.mp hz with rfl | hz2
        · intro hlt
          exact hmin y (List.mem_cons_self _ _) (((pairLt_iff_lt y z).mp hp).trans hlt)
        · rcases List.mem_cons.mp hz2 with rfl | hz3
          · exact hmin z (List.mem_cons_self _ _)
          · exact hmin z (List.mem_cons_of_mem _ hz3)
    · rw [if_neg hp]
      obtain ⟨hmem, hmin⟩ := ih acc
      refine ⟨?_, fun z hz => ?_⟩
      · rcases List.mem_cons.mp hmem with h | h
        · rw [h]; exact List.mem_cons_self _ _
        · exact List.mem_cons_of_mem _ (List.mem_cons_of_mem _ h)
      · rcases List.mem_cons.mp hz with rfl | hz2
        · exact hmin z (List.mem_cons_self _ _)
        · rcases List.mem_cons.mp hz2 with rfl | hz3
          · intro hlt
            have hya : ¬ toLex z < toLex acc := fun hc => hp ((pairLt_iff_lt z acc).mpr hc)
            exact hmin acc (List.mem_cons_self _ _) (lt_of_le_of_lt (not_lt.mp hya) hlt)
          · exact hmin z (List.mem_cons_of_mem _ hz3)

theorem pyMin_spec (l : List (Nat × String)) (m : Nat × String) (h : pyMin l = some m) :
    m ∈ l ∧ ∀ z ∈ l, ¬ toLex z < toLex m := by
  cases l with
  | nil => exact absurd h (by simp [pyMin])
  | cons x xs =>
    have hspec := pyMin_fold_spec xs x
    have hm : xs.foldl (fun a y => if pairLt y a then y else a) x = m := by
      simpa [pyMin] using h
    rw [hm] at hspec
    exact hspec

/-- C7: whenever line 230 of `search` selects a branching pair `(n, s)`, the
cell `s` is an unsolved cell (more than one candidate) whose candidate count
`n` is minimal among unsolved cells, and among unsolved cells of minimal
count `s` is the lexicographically smallest label (the `boxes` enumeration
is row-major, so this is also the first such cell in row-major order). -/
theorem C7_choose_box_min (values : Grid) (n : Nat) (s : String)
    (h : choose_box values = some (n, s)) :
    s ∈ boxes ∧ n = (lookup values s).length ∧ 1 < n ∧
    ∀ t, t ∈ boxes → 1 < (lookup values t).length →
      n < (lookup values t).length ∨ (n = (lookup values t).length ∧ s ≤ t) := by
  obtain ⟨hmem, hmin⟩ := pyMin_spec _ _ h
  obtain ⟨t0, ht0, heq⟩ := List.mem_map.mp hmem
  obtain ⟨hbox, hlen⟩ := List.mem_filter.mp ht0
  injection heq with hn hs
  subst hs
  subst hn
  refine ⟨hbox, rfl, by simpa using hlen, fun t htb htlen => ?_⟩
  have htc : ((lookup values t).length, t) ∈ branch_candidates values :=
    List.mem_map.mpr ⟨t, List.mem_filter.mpr ⟨htb, by simpa using htlen⟩, rfl⟩
  have hnot := hmin _ htc
  rw [not_lt, Prod.Lex.le_iff] at hnot
  simpa using hnot

/-- The board used for the second `reduce_puzzle` idempotence counterexample,
also the witness board for the branching-cell selection: A1 can be 1 or 2,
A9 can be 1, 2 or 3, and B9, C9 form a 3-4 naked twin pair in column 9. -/
def c4g : Grid := gridOf [("A1", "12"), ("A9", "123"), ("B9", "34"), ("C9", "34")]

set_option maxRecDepth 40000 in
/-- Witness for `C7_choose_box_min`: on `c4g` the selection is the pair
`(2, A1)`. -/
theorem C7_choose_box_min_witness :
    choose_box c4g = some (2, ("A1")) ∧ ("A1") ∈ boxes ∧
      2 = (lookup c4g ("A1")).length ∧ 1 < 2 :=
  have h : choose_box c4g = some (2, ("A1")) := by decide
  ⟨h, (C7_choose_box_min c4g 2 ("A1") h).1, (C7_choose_box_min c4g 2 ("A1") h).2.1,
    (C7_choose_box_min c4g 2 ("A1") h).2.2.1⟩

/-! ### C1: whatever `solve` returns solved is a valid diagonal solution -/

/-- Well-formed board: every candidate string is a sublist of `123456789`. -/
def wf (g : Grid) : Prop := ∀ b, List.Sublist (lookup g b) cols

/-- Every box is down to a single candidate. -/
def allSolvedP (g : Grid) : Prop := ∀ b ∈ boxes, (lookup g b).length = 1

/-- Each of the 29 units contains each digit 1-9 exactly once. -/
def validUnits (g : Grid) : Prop :=
  ∀ u ∈ unitlist, ∀ d ∈ cols, ((u.map (fun b => lookup g b)).flatten).count d = 1

theorem wf_of_GS {g1 g2 : Grid} (h : GS g1 g2) (hw : wf g2) : wf g1 :=
  fun b => (h b).trans (hw b)

theorem exists_of_mem_keys (g : Grid) (b : String) (h : b ∈ keys g) :
    ∃ v, (b, v) ∈ g := by
  obtain ⟨p, hp, hfst⟩ := List.mem_map.mp h
  exact ⟨p.2, by rwa [show (b, p.2) = p from by rw [← hfst]]⟩

theorem cols_length : cols.length = 9 := by decide

theorem boxes_length : boxes.length = 81 := by decide

theorem mem_s_values_of (g : Grid) (b : String) (hnd : (keys g).Nodup)
    (hb : b ∈ keys g) (hlen : (lookup g b).length = 1) : b ∈ s_values g := by
  obtain ⟨v, hv⟩ := exists_of_mem_keys g b hb
  have hlook := lookup_of_mem g b v hv hnd
  refine List.mem_map.mpr ⟨(b, v), List.mem_filter.mpr ⟨hv, ?_⟩, rfl⟩
  rw [← hlook]
  simpa using hlen

theorem solvedCount_eq_max (g : Grid) (hk : keys g = boxes) (hsol : allSolvedP g) :
    solvedCount g = 81 := by
  have hall : ∀ p ∈ g, (p.2.length == 1) = true := by
    intro p hp
    have hbk : p.1 ∈ keys g := by simpa [keys] using List.mem_map_of_mem Prod.fst hp
    have hl := lookup_of_mem g p.1 p.2 hp (hk ▸ boxes_nodup)
    have := hsol p.1 (hk ▸ hbk)
    rw [hl] at this
    simpa using this
  show ((g.filter (fun p => p.2.length == 1)).map Prod.fst).length = 81
  rw [List.filter_eq_self.mpr hall, List.length_map, ← boxes_length, ← hk]
  exact (List.length_map g Prod.fst).symm

theorem allSolved_of_count (g : Grid) (hk : keys g = boxes) (hc : solvedCount g = 81) :
    allSolvedP g := by
  have hlen : g.length = 81 := by
    have := congrArg List.length hk
    simpa [keys, boxes_length] using this
  have hfl : (g.filter (fun p => p.2.length == 1)).length = g.length := by
    show _ = g.length
    have : solvedCount g = (g.filter (fun p => p.2.length == 1)).length := by
      show ((g.filter (fun p => p.2.length == 1)).map Prod.fst).length = _
      rw [List.length_map]
    rw [← this, hc, hlen]
  have hall := (List.filter_length_eq_length).mp hfl
  intro b hb
  obtain ⟨v, hv⟩ := exists_of_mem_keys g b (hk ▸ hb)
  rw [lookup_of_mem g b v hv (hk ▸ boxes_nodup)]
  simpa using hall (b, v) hv

/-- A successful `reduce_puzzle` run ends with a stalled pass on some
intermediate state: the result is one pass from a state with the same
solved count, no box is empty, and keys and shrinking transport. -/
theorem reduce_some_spec (fuel : Nat) (st : St) (v : Grid)
    (h : (reduce_puzzle fuel st).1 = some v) :
    ∃ w : St, keys w.values = keys st.values ∧ GS w.values st.values ∧
      v = (reduce_pass w).values ∧ solvedCount w.values = solvedCount v ∧
      emptyCount v = 0 := by
  induction fuel generalizing st with
  | zero => simp [reduce_puzzle] at h
  | succ fuel ih =>
    rw [reduce_puzzle_unfold] at h
    by_cases he : emptyCount (reduce_pass st).values ≠ 0
    · rw [if_pos he] at h
      simp at h
    · rw [if_neg he] at h
      by_cases hs : solvedCount st.values = solvedCount (reduce_pass st).values
      · rw [if_pos hs] at h
        have hv : (reduce_pass st).values = v := by simpa using h
        refine ⟨st, rfl, GS_refl _, hv.symm, ?_, ?_⟩
        · rw [hs, hv]
        · rw [← hv]
          simpa using he
      · rw [if_neg hs] at h
        obtain ⟨w, hk, hgs, hv, hc, hemp⟩ := ih (reduce_pass st) h
        exact ⟨w, by rw [hk, reduce_pass_keys], GS_trans hgs (reduce_pass_GS st),
          hv, hc, hemp⟩

/-- Pointwise equality of two boards, seen through `lookup`. -/
def Epw (g1 g2 : Grid) : Prop := ∀ b, lookup g1 b = lookup g2 b

theorem Epw_refl (g : Grid) : Epw g g := fun _ => rfl

theorem Epw_symm {g1 g2 : Grid} (h : Epw g1 g2) : Epw g2 g1 := fun b => (h b).symm

theorem Epw_trans {g1 g2 g3 : Grid} (h1 : Epw g1 g2) (h2 : Epw g2 g3) : Epw g1 g3 :=
  fun b => (h1 b).trans (h2 b)

/-- A middle board of a shrinking chain whose ends agree pointwise agrees
with the ends. -/
theorem Epw_sandwich {a b c : Grid} (h1 : GS a b) (h2 : GS b c) (h : Epw a c) :
    Epw b c := by
  intro x
  have hcb : List.Sublist (lookup c x) (lookup b x) := by
    have := h1 x
    rwa [h x] at this
  exact (h2 x).antisymm hcb

/-- In a fold of shrinking, key-preserving steps whose overall result is the
start board, every single step is applied at (and returns) the start board. -/
theorem foldl_pinned {α : Type} (f : St → α → St)
    (hGS : ∀ s a, GS (f s a).values s.values)
    (hK : ∀ s a, keys (f s a).values = keys s.values) :
    ∀ (l : List α) (st : St),
      Epw ((l.foldl f st).values) st.values →
      ∀ x ∈ l, ∃ s : St, Epw s.values st.values ∧ keys s.values = keys st.values ∧
        Epw (f s x).values st.values := by
  intro l
  induction l with
  | nil =>
    intro st _ x hx
    exact absurd hx (List.not_mem_nil x)
  | cons a l ih =>
    intro st hpin x hx
    have hfold : (a :: l).foldl f st = l.foldl f (f st a) := rfl
    rw [hfold] at hpin
    have hGSfold : GS ((l.foldl f (f st a)).values) (f st a).values :=
      foldl_GS f l (fun s y _ => hGS s y) (f st a)
    have hstep : Epw (f st a).values st.values :=
      Epw_sandwich hGSfold (hGS st a) hpin
    rcases List.mem_cons.mp hx with hx1 | hx1
    · subst hx1
      exact ⟨st, Epw_refl _, rfl, hstep⟩
    · have hpin2 : Epw ((l.foldl f (f st a)).values) (f st a).values :=
        Epw_trans hpin (Epw_symm hstep)
      obtain ⟨s, h1, h2, h3⟩ := ih (f st a) hpin2 x hx1
      exact ⟨s, Epw_trans h1 hstep, h2.trans (hK st a),
        Epw_trans h3 hstep⟩

/-- If one full `eliminate` pass returns the board unchanged on a solved
board, no solved box shares its digit with any of its peers. -/
theorem pinned_no_conflict (w : St) (hk : keys w.values = boxes)
    (hpin : Epw (eliminate w).values w.values) :
    ∀ p ∈ s_values w.values, ∀ q ∈ peers p, lookup w.values q ≠ lookup w.values p := by
  intro p hp q hq
  obtain ⟨s, hs, hks, hstep⟩ :=
    foldl_pinned elimBox (fun s b => elimBox_GS s b) (fun s b => elimBox_keys s b)
      (s_values w.values) w hpin p hp
  have hEB : elimBox s p = (peers p).foldl
      (fun st2 peer => assign_value st2 peer
        (pyReplace (lookup st2.values peer) (lookup s.values p))) s := rfl
  rw [hEB] at hstep
  have hpin2 : Epw (((peers p).foldl
      (fun st2 peer => assign_value st2 peer
        (pyReplace (lookup st2.values peer) (lookup s.values p))) s).values) s.values :=
    Epw_trans hstep (Epw_symm hs)
  obtain ⟨s2, hs2, hks2, hstep2⟩ :=
    foldl_pinned _
      (fun t peer => assign_value_GS t peer _ (pyReplace_sublist _ _))
      (fun t peer => keys_assign_value t peer _)
      (peers p) s hpin2 q hq
  have hqb : q ∈ boxes := peers_subset_boxes p q hq
  have hkq : q ∈ keys s2.values := by
    rw [hks2, hks, hk]
    exact hqb
  have hset : lookup (assign_value s2 q
      (pyReplace (lookup s2.values q) (lookup s.values p))).values q =
      pyReplace (lookup s2.values q) (lookup s.values p) := by
    rw [assign_value_values, lookup_gset_self _ _ _ hkq]
  have hval : pyReplace (lookup s2.values q) (lookup s.values p) = lookup s.values q := by
    rw [← hset]
    exact hstep2 q
  rw [hs2 q, hs q, hs p] at hval
  obtain ⟨_, hlp⟩ := s_values_mem w.values (hk ▸ boxes_nodup) p hp
  obtain ⟨d, hd⟩ := List.length_eq_one.mp hlp
  intro heq
  rw [heq, hd, pyReplace_singleton] at hval
  simp at hval

/-- Two distinct cells of one unit are peers of each other. -/
theorem same_unit_peers (u : List String) (hu : u ∈ unitlist) (p q : String)
    (hp : p ∈ u) (hq : q ∈ u) (hne : q ≠ p) : q ∈ peers p := by
  refine List.mem_filter.mpr ⟨List.mem_dedup.mpr ?_, by simpa using hne⟩
  refine List.mem_flatten.mpr ⟨u, List.mem_filter.mpr ⟨hu, ?_⟩, hq⟩
  exact List.elem_iff.mpr hp

theorem cols_nodup : cols.Nodup := by decide

theorem cols_count_one : ∀ d ∈ cols, cols.count d = 1 := by decide

theorem unit_len : ∀ u ∈ unitlist, u.length = 9 := by decide

theorem unit_nodup : ∀ u ∈ unitlist, u.Nodup := by decide

theorem flatten_singletons (f : String → List Char) (d : String → Char) :
    ∀ (u : List String), (∀ b ∈ u, f b = [d b]) → (u.map f).flatten = u.map d := by
  intro u
  induction u with
  | nil => intro _; rfl
  | cons a l ih =>
    intro h
    have ha := h a (List.mem_cons_self a l)
    have hl := ih (fun b hb => h b (List.mem_cons_of_mem a hb))
    simp [ha, hl]

/-- An all-solved board whose solved digits are pairwise distinct across
peers satisfies every unit constraint. -/
theorem valid_of_distinct (g : Grid) (hwf : wf g)
    (hsol : allSolvedP g)
    (hdist : ∀ b ∈ boxes, ∀ q ∈ peers b, lookup g q ≠ lookup g b) :
    validUnits g := by
  intro u hu d hd
  have hboxes : ∀ b ∈ u, b ∈ boxes := units_all_boxes u hu
  have hsingle : ∀ b ∈ u, lookup g b = [(lookup g b).headD 'x'] := by
    intro b hb
    obtain ⟨c, hc⟩ := List.length_eq_one.mp (hsol b (hboxes b hb))
    rw [hc]
    rfl
  have hflat : ((u.map (fun b => lookup g b)).flatten) =
      u.map (fun b => (lookup g b).headD 'x') :=
    flatten_singletons _ _ u hsingle
  rw [hflat]
  have hnd : (u.map (fun b => (lookup g b).headD 'x')).Nodup := by
    refine (unit_nodup u hu).map_on ?_
    intro x hx y hy hxy
    by_contra hne
    have hqp : y ∈ peers x := same_unit_peers u hu x y hx hy (fun h => hne h.symm)
    have heq : lookup g y = lookup g x := by
      rw [hsingle x hx, hsingle y hy, hxy]
    exact hdist x (hboxes x hx) y hqp heq
  have hsub : ∀ c ∈ u.map (fun b => (lookup g b).headD 'x'), c ∈ cols := by
    intro c hc
    obtain ⟨b, hb, hcb⟩ := List.mem_map.mp hc
    have hbc : [c] = lookup g b := by rw [hsingle b hb, hcb]
    have hsubl := hwf b
    rw [← hbc] at hsubl
    exact List.singleton_sublist.mp hsubl
  have hlen : cols.length ≤ (u.map (fun b => (lookup g b).headD 'x')).length := by
    rw [List.length_map, unit_len u hu, cols_length]
  have hsp : List.Subperm (u.map (fun b => (lookup g b).headD 'x')) cols :=
    List.subperm_of_subset hnd hsub
  have hperm : List.Perm (u.map (fun b => (lookup g b).headD 'x')) cols :=
    hsp.perm_of_length_le hlen
  rw [hperm.count_eq, cols_count_one d hd]

/-- An all-solved success of `reduce_puzzle` has pairwise-distinct digits
across peers: the final stalled pass contains an identity `eliminate` pass. -/
theorem reduce_solved_distinct (fuel : Nat) (st : St) (v : Grid)
    (hk : keys st.values = boxes)
    (h : (reduce_puzzle fuel st).1 = some v)
    (hsol : allSolvedP v) :
    ∀ b ∈ boxes, ∀ q ∈ peers b, lookup v q ≠ lookup v b := by
  obtain ⟨w, hkw, hgs, hv, hc, hemp⟩ := reduce_some_spec fuel st v h
  have hkwb : keys w.values = boxes := hkw.trans hk
  have hkv : keys v = boxes := by rw [hv, reduce_pass_keys, hkwb]
  have h81 : solvedCount v = 81 := solvedCount_eq_max v hkv hsol
  have hsolw : allSolvedP w.values := allSolved_of_count _ hkwb (by rw [hc, h81])
  have hgs_v_w : GS v w.values := by
    rw [hv]
    exact reduce_pass_GS w
  have hepw : Epw v w.values := by
    intro b
    by_cases hb : b ∈ boxes
    · exact (hgs_v_w b).eq_of_length (by rw [hsol b hb, hsolw b hb])
    · rw [lookup_eq_nil_of_not_mem v b (by rw [hkv]; exact hb),
        lookup_eq_nil_of_not_mem w.values b (by rw [hkwb]; exact hb)]
  have h1 : GS v (naked_twins (eliminate w)).values := by
    rw [hv]
    exact only_choice_GS (naked_twins (eliminate w))
  have h2 : GS (naked_twins (eliminate w)).values (eliminate w).values := naked_twins_GS _
  have h3 : GS (eliminate w).values w.values := eliminate_GS w
  have hnt : Epw (naked_twins (eliminate w)).values w.values :=
    Epw_sandwich h1 (GS_trans h2 h3) hepw
  have hel : Epw (eliminate w).values w.values := Epw_sandwich h2 h3 hnt
  have hdist := pinned_no_conflict w hkwb hel
  intro b hb q hq
  have hbmem : b ∈ s_values w.values :=
    mem_s_values_of w.values b (hkwb ▸ boxes_nodup) (by rw [hkwb]; exact hb) (hsolw b hb)
  rw [hepw q, hepw b]
  exact hdist b hbmem q hq

/-- A `reduce_puzzle` success that is all-solved satisfies all 29 units. -/
theorem reduce_solved_valid (fuel : Nat) (st : St) (v : Grid)
    (hk : keys st.values = boxes) (hwf : wf st.values)
    (h : (reduce_puzzle fuel st).1 = some v) (hsol : allSolvedP v) :
    validUnits v := by
  have hwfv : wf v := wf_of_GS (reduce_puzzle_GS fuel st v h) hwf
  exact valid_of_distinct v hwfv hsol (reduce_solved_distinct fuel st v hk h hsol)

/-- The safety invariant carried through the branching fold of `search`:
whenever the accumulated result is a solved grid, it is a safe one. -/
theorem search_fold_safe (recur : St → Option Grid × List Grid)
    (hrec : ∀ st v, keys st.values = boxes → wf st.values →
      (recur st).1 = some v → keys v = boxes ∧ allSolvedP v ∧ validUnits v)
    (values : Grid) (s : String)
    (hk : keys values = boxes) (hwf : wf values) :
    ∀ (l : List Char) (acc : Option Grid × List Grid),
      (∀ c ∈ l, c ∈ lookup values s) →
      (∀ v, acc.1 = some v → keys v = boxes ∧ allSolvedP v ∧ validUnits v) →
      ∀ v, (l.foldl (fun acc c =>
          match acc with
          | (some v, log1) => (some v, log1)
          | (none, log1) => recur (assign_value ⟨values, log1⟩ s [c])) acc).1 = some v →
        keys v = boxes ∧ allSolvedP v ∧ validUnits v := by
  intro l
  induction l with
  | nil =>
    intro acc _ hacc v h
    exact hacc v h
  | cons c l ihl =>
    intro acc hmem hacc v h
    rw [List.foldl_cons] at h
    refine ihl _ (fun x hx => hmem x (List.mem_cons_of_mem c hx)) ?_ v h
    intro v2 h2
    rcases acc with ⟨o, log1⟩
    cases o with
    | some v3 => exact hacc v2 h2
    | none =>
      refine hrec (assign_value ⟨values, log1⟩ s [c]) v2 ?_ ?_ h2
      · rw [keys_assign_value]
        exact hk
      · refine wf_of_GS (assign_value_GS ⟨values, log1⟩ s [c] ?_) hwf
        exact List.singleton_sublist.mpr (hmem c (List.mem_cons_self c l))

/-- Any solved grid returned by `search` is complete, well-formed and
satisfies all 29 unit constraints. -/
theorem search_safe (fuel : Nat) :
    ∀ (st : St) (v : Grid), keys st.values = boxes → wf st.values →
      (search fuel st).1 = some v → keys v = boxes ∧ allSolvedP v ∧ validUnits v := by
  induction fuel with
  | zero =>
    intro st v _ _ h
    exact absurd h (by simp [search])
  | succ fuel ih =>
    intro st v hk hwf h
    have hunfold : search (fuel + 1) st = search_step fuel (search fuel) st := rfl
    rw [hunfold] at h
    unfold search_step at h
    rcases hred : reduce_puzzle (fuel + 1) st with ⟨res, log⟩
    rw [hred] at h
    cases res with
    | none => simp at h
    | some values =>
      have hredsome : (reduce_puzzle (fuel + 1) st).1 = some values := by rw [hred]
      have hkvals : keys values = boxes :=
        (reduce_puzzle_keys _ st values hredsome).trans hk
      have hwfvals : wf values := wf_of_GS (reduce_puzzle_GS _ st values hredsome) hwf
      dsimp only at h
      by_cases hall : boxes.all (fun s => (lookup values s).length == 1)
      · rw [if_pos hall] at h
        have hv : values = v := by simpa using h
        subst hv
        have hsol : allSolvedP values := by
          intro b hb
          have := List.all_eq_true.mp hall b hb
          simpa using this
        exact ⟨hkvals, hsol, reduce_solved_valid _ st values hk hwf hredsome hsol⟩
      · rw [if_neg hall] at h
        cases hcb : choose_box values with
        | none =>
          rw [hcb] at h
          simp at h
        | some ns =>
          rw [hcb] at h
          obtain ⟨n, s⟩ := ns
          dsimp only at h
          exact search_fold_safe (search fuel) (fun st2 v2 => ih st2 v2) values s
            hkvals hwfvals (lookup values s) (none, log) (fun c hc => hc)
            (fun v2 h2 => by simp at h2) v h

/-- Every candidate string produced by the `grid_values` scan is a sublist
of `123456789`: a kept digit gives a singleton, a dot the full string. -/
theorem gv_step_mem (acc : List (List Char)) (c : Char) (y : List Char)
    (hy : y ∈ gv_step acc c) : y ∈ acc ∨ List.Sublist y cols := by
  simp only [gv_step] at hy
  have hmem : ∀ z ∈ (if cols.contains c then acc ++ [[c]] else acc),
      z ∈ acc ∨ List.Sublist z cols := by
    intro z hz
    by_cases hcol : cols.contains c
    · rw [if_pos hcol] at hz
      rcases List.mem_append.mp hz with h1 | h1
      · exact Or.inl h1
      · right
        have hz2 : z = [c] := by simpa using h1
        rw [hz2]
        exact List.singleton_sublist.mpr (List.elem_iff.mp hcol)
    · rw [if_neg hcol] at hz
      exact Or.inl hz
  by_cases hdot : c = '.'
  · rw [if_pos hdot] at hy
    rcases List.mem_append.mp hy with h1 | h1
    · exact hmem y h1
    · right
      have hy2 : y = cols := by simpa using h1
      rw [hy2]
  · rw [if_neg hdot] at hy
    exact hmem y hy

theorem gv_fold_sublist : ∀ (input : List Char) (acc : List (List Char)),
    (∀ x ∈ acc, List.Sublist x cols) →
    ∀ x ∈ input.foldl gv_step acc, List.Sublist x cols := by
  intro input
  induction input with
  | nil =>
    intro acc h x hx
    exact h x hx
  | cons c cs ih =>
    intro acc h x hx
    refine ih (gv_step acc c) ?_ x hx
    intro y hy
    rcases gv_step_mem acc c y hy with h1 | h1
    · exact h y h1
    · exact h1

/-- Every `lookup` is either empty or one of the stored values. -/
theorem lookup_mem_or_nil (g : Grid) (b : String) :
    lookup g b = [] ∨ (b, lookup g b) ∈ g := by
  induction g with
  | nil => exact Or.inl rfl
  | cons p rest ih =>
    by_cases hp : p.1 = b
    · right
      rw [lookup, if_pos hp]
      have hpr : (b, p.2) = p := by rw [← hp]
      rw [hpr]
      exact List.mem_cons_self p rest
    · rw [lookup, if_neg hp]
      rcases ih with h1 | h1
      · exact Or.inl h1
      · exact Or.inr (List.mem_cons_of_mem p h1)

/-- A successful parse yields a board keyed exactly by the 81 boxes whose
candidate strings are all sublists of `123456789`. -/
theorem grid_values_wf (input : List Char) (g : Grid)
    (h : grid_values input = some g) : keys g = boxes ∧ wf g := by
  simp only [grid_values] at h
  by_cases hlen : (input.foldl gv_step []).length = 81
  · rw [if_pos hlen] at h
    have hg : g = boxes.zip (input.foldl gv_step []) := by
      exact (Option.some.injEq _ _ ▸ h).symm
    constructor
    · rw [hg]
      show (boxes.zip (input.foldl gv_step [])).map Prod.fst = boxes
      exact List.map_fst_zip _ _ (by simp [boxes_length, hlen])
    · intro b
      rcases lookup_mem_or_nil g b with h1 | h1
      · rw [h1]
        exact List.nil_sublist cols
      · have hx : lookup g b ∈ input.foldl gv_step [] := by
          generalize hv : lookup g b = x
          rw [hv] at h1
          rw [hg] at h1
          exact (List.of_mem_zip h1).2
        exact gv_fold_sublist input []
          (fun x hx2 => absurd hx2 (List.not_mem_nil x)) _ hx
  · rw [if_neg hlen] at h
    simp at h

/-- **C1.** For every input, fuel and ambient log, `solve` either signals
unsat (`none`) or returns a grid over exactly the 81 boxes in which every
box is solved and each of the 29 units contains each digit 1-9 exactly
once: it never returns a partial or unit-violating grid. -/
theorem C1_solve_safe (fuel : Nat) (input : List Char) (log : List Grid) :
    (solve fuel input log).1.elim True
      (fun v => keys v = boxes ∧ allSolvedP v ∧ validUnits v) := by
  unfold solve
  cases hgv : grid_values input with
  | none => exact trivial
  | some g =>
    obtain ⟨hk, hwf⟩ := grid_values_wf input g hgv
    dsimp only
    cases hs : search fuel ⟨g, log⟩ with
    | mk res lg =>
      cases res with
      | none => exact trivial
      | some v =>
        have h1 : (search fuel ⟨g, log⟩).1 = some v := by rw [hs]
        exact search_safe fuel ⟨g, log⟩ v hk hwf h1

/-! ### C4: `reduce_puzzle` stalls on the solved count, not on the board -/

theorem foldl_fixed {α : Type} (f : St → α → St) (l : List α) (st : St)
    (h : ∀ a ∈ l, f st a = st) : l.foldl f st = st := by
  induction l with
  | nil => rfl
  | cons a rest ih =>
    rw [List.foldl_cons, h a (List.mem_cons_self _ _)]
    exact ih (fun x hx => h x (List.mem_cons_of_mem _ hx))

theorem only_choice_fixed (st : St)
    (h : ∀ u ∈ unitlist, cols.foldl (fun st2 digit => oc_digit st2 u digit) st = st) :
    only_choice st = st := by
  unfold only_choice
  exact foldl_fixed _ _ _ h

/-- The board reached from `c4g` after one `reduce_puzzle` pass: the 3-4
twins of column 9 and of the top-right box have fired. -/
def c4G1 : Grid := gridOf
  [("A1", "12"), ("A7", "1256789"), ("A8", "1256789"), ("A9", "12"),
   ("B7", "1256789"), ("B8", "1256789"), ("B9", "34"),
   ("C7", "1256789"), ("C8", "1256789"), ("C9", "34"),
   ("D9", "1256789"), ("E9", "1256789"), ("F9", "1256789"),
   ("G9", "1256789"), ("H9", "1256789"), ("I9", "1256789")]

/-- The board reached from `c4G1` by one further pass: the freshly formed
1-2 twin pair A1/A9 of row A (created only at the end of the first pass)
now also fires, removing 1 and 2 across row A. -/
def c4G2 : Grid := gridOf
  [("A1", "12"), ("A2", "3456789"), ("A3", "3456789"), ("A4", "3456789"),
   ("A5", "3456789"), ("A6", "3456789"), ("A7", "56789"), ("A8", "56789"),
   ("A9", "12"),
   ("B7", "1256789"), ("B8", "1256789"), ("B9", "34"),
   ("C7", "1256789"), ("C8", "1256789"), ("C9", "34"),
   ("D9", "1256789"), ("E9", "1256789"), ("F9", "1256789"),
   ("G9", "1256789"), ("H9", "1256789"), ("I9", "1256789")]

set_option maxRecDepth 100000 in
theorem c4_pass1 : reduce_pass ⟨c4g, []⟩ = ⟨c4G1, []⟩ := by
  have he : eliminate ⟨c4g, []⟩ = ⟨c4g, []⟩ := by
    show eliminate_order (s_values c4g) ⟨c4g, []⟩ = ⟨c4g, []⟩
    have hs : s_values c4g = [] := by decide
    rw [hs]
    rfl
  have hnt : naked_twins ⟨c4g, []⟩ = ⟨c4G1, []⟩ := by decide
  have hoc : ∀ u ∈ unitlist,
      cols.foldl (fun st2 digit => oc_digit st2 u digit) ⟨c4G1, []⟩ = ⟨c4G1, []⟩ := by
    decide
  unfold reduce_pass
  rw [he, hnt, only_choice_fixed _ hoc]

set_option maxRecDepth 100000 in
theorem c4_pass2 : reduce_pass ⟨c4G1, []⟩ = ⟨c4G2, []⟩ := by
  have he : eliminate ⟨c4G1, []⟩ = ⟨c4G1, []⟩ := by
    show eliminate_order (s_values c4G1) ⟨c4G1, []⟩ = ⟨c4G1, []⟩
    have hs : s_values c4G1 = [] := by decide
    rw [hs]
    rfl
  have hnt : naked_twins ⟨c4G1, []⟩ = ⟨c4G2, []⟩ := by decide
  have hoc : ∀ u ∈ unitlist,
      cols.foldl (fun st2 digit => oc_digit st2 u digit) ⟨c4G2, []⟩ = ⟨c4G2, []⟩ := by
    decide
  unfold reduce_pass
  rw [he, hnt, only_choice_fixed _ hoc]

set_option maxRecDepth 100000 in
theorem c4_reduce1 : reduce_puzzle 10 ⟨c4g, []⟩ = (some c4G1, []) := by
  show reduce_puzzle (9 + 1) ⟨c4g, []⟩ = (some c4G1, [])
  rw [reduce_puzzle_unfold, c4_pass1]
  rw [if_neg (by decide), if_pos (by decide)]

set_option maxRecDepth 100000 in
theorem c4_reduce2 : reduce_puzzle 10 ⟨c4G1, []⟩ = (some c4G2, []) := by
  show reduce_puzzle (9 + 1) ⟨c4G1, []⟩ = (some c4G2, [])
  rw [reduce_puzzle_unfold, c4_pass2]
  rw [if_neg (by decide), if_pos (by decide)]

set_option maxRecDepth 100000 in
/-- C4 counterexample: the claim says `reduce_puzzle` is idempotent on every
board it succeeds on.  On `c4g` it succeeds with `c4G1`, but a second
application succeeds with the strictly smaller board `c4G2 ≠ c4G1`: the
first pass stalls because the solved-cell count is unchanged, even though
its column-9 twin elimination has just created a fresh 1-2 twin pair in row
A that the next pass eliminates with. -/
theorem C4_counterexample :
    (reduce_puzzle 10 ⟨c4g, []⟩).1 = some c4G1 ∧
    (reduce_puzzle 10 ⟨c4G1, []⟩).1 ≠ some c4G1 := by
  refine ⟨by rw [c4_reduce1], ?_⟩
  rw [c4_reduce2]
  intro h
  exact absurd (Option.some.inj h) (by decide)

/-- C4 (amended): a second application of `reduce_puzzle` need not return
the same board, but it can only refine it: whenever `reduce_puzzle` succeeds
on a board and succeeds again on its own output, every cell's candidate
string of the second result is a sublist of that cell's string in the first
result (the rules only ever remove candidates). -/
theorem C4_reduce_refines (fuel1 fuel2 : Nat) (st : St) :
    match (reduce_puzzle fuel1 st).1 with
    | none => True
    | some g1 =>
      match (reduce_puzzle fuel2 ⟨g1, []⟩).1 with
      | none => True
      | some g2 => ∀ b, List.Sublist (lookup g2 b) (lookup g1 b) := by
  cases h1 : (reduce_puzzle fuel1 st).1 with
  | none => trivial
  | some g1 =>
    dsimp only
    cases h2 : (reduce_puzzle fuel2 ⟨g1, []⟩).1 with
    | none => trivial
    | some g2 =>
      dsimp only
      exact reduce_puzzle_GS fuel2 ⟨g1, []⟩ g2 h2

/-! ### C3: what `naked_twins` does to a unit -/

/-- A board whose row A holds two overlapping naked twin pairs: 23 at A1, A2
and 34 at A3, A4. -/
def c3g : Grid := gridOf [("A1", "23"), ("A2", "23"), ("A3", "34"), ("A4", "34")]

set_option maxRecDepth 100000 in
/-- C3 counterexample: the claim says a twin pair's two cells are left
unchanged.  In row A of `c3g` both 23 (at A1, A2) and 34 (at A3, A4) are
naked twin pairs of that unit, yet `naked_twins` changes the twin cell A1
from 23 to 2: the 34 pair's elimination strikes the 3 out of it, because the
code protects cells by current value, not by identity. -/
theorem C3_counterexample :
    (cross [('A')] cols) ∈ unitlist ∧
    twins_num c3g (cross [('A')] cols) =
      [['2', '3'], ['2', '3'], ['3', '4'], ['3', '4']] ∧
    lookup c3g ("A1") = ['2', '3'] ∧
    lookup (naked_twins ⟨c3g, []⟩).values ("A1") = ['2'] := by
  exact ⟨by decide, by decide, by decide, by decide⟩

theorem nt_round_lookup (u : List String) (numbers : List Char) (number : Char)
    (hnum : number ∈ numbers) (st : St) (hkeys : ∀ x ∈ u, x ∈ keys st.values) :
    ∀ b, lookup ((u.foldl (fun st3 box =>
        if lookup st3.values box ≠ numbers then
          assign_value st3 box (pyReplace (lookup st3.values box) [number])
        else st3) st)).values b =
      if b ∈ u ∧ lookup st.values b ≠ numbers then
        (lookup st.values b).filter (fun c => c ≠ number)
      else lookup st.values b := by
  induction u generalizing st with
  | nil => intro b; simp
  | cons p rest ih =>
    intro b
    rw [List.foldl_cons]
    by_cases hl : lookup st.values p ≠ numbers
    · rw [if_pos hl]
      have hpk : p ∈ keys st.values := hkeys p (List.mem_cons_self _ _)
      have hlook : ∀ x,
          lookup (assign_value st p (pyReplace (lookup st.values p) [number])).values x =
            if x = p then (lookup st.values p).filter (fun c => c ≠ number)
            else lookup st.values x := by
        intro x
        rw [assign_value_values]
        by_cases hx : x = p
        · subst hx
          rw [if_pos rfl, lookup_gset_self _ _ _ hpk, pyReplace_singleton]
        · rw [if_neg hx, lookup_gset_ne _ _ _ _ hx]
      have hk2 : ∀ x ∈ rest,
          x ∈ keys (assign_value st p (pyReplace (lookup st.values p) [number])).values := by
        intro x hx
        rw [keys_assign_value]
        exact hkeys x (List.mem_cons_of_mem _ hx)
      rw [ih _ hk2 b, hlook b]
      by_cases hbp : b = p
      · subst hbp
        rw [if_pos rfl]
        have hfd : (lookup st.values b).filter (fun c => c ≠ number) ≠ numbers :=
          filter_ne_of_mem _ _ _ hnum
        by_cases hbr : b ∈ rest
        · rw [if_pos ⟨hbr, hfd⟩, filter_filter_self,
            if_pos ⟨List.mem_cons_self _ _, hl⟩]
        · rw [if_neg (by simp [hbr]), if_pos ⟨List.mem_cons_self _ _, hl⟩]
      · rw [if_neg hbp]
        by_cases hbr : b ∈ rest ∧ lookup st.values b ≠ numbers
        · rw [if_pos hbr, if_pos ⟨List.mem_cons_of_mem _ hbr.1, hbr.2⟩]
        · rw [if_neg hbr, if_neg (by
            rintro ⟨hm, hv⟩
            rcases List.mem_cons.mp hm with h | h
            · exact hbp h
            · exact hbr ⟨h, hv⟩)]
    · rw [if_neg hl]
      rw [ih _ (fun x hx => hkeys x (List.mem_cons_of_mem _ hx)) b]
      push_neg at hl
      by_cases hbp : b = p
      · subst hbp
        rw [if_neg (by rintro ⟨_, hv⟩; exact hv hl),
          if_neg (by rintro ⟨_, hv⟩; exact hv hl)]
      · by_cases hbr : b ∈ rest ∧ lookup st.values b ≠ numbers
        · rw [if_pos hbr, if_pos ⟨List.mem_cons_of_mem _ hbr.1, hbr.2⟩]
        · rw [if_neg hbr, if_neg (by
            rintro ⟨hm, hv⟩
            rcases List.mem_cons.mp hm with h | h
            · exact hbp h
            · exact hbr ⟨h, hv⟩)]

theorem nt_numbers_lookup (u : List String) (d1 d2 : Char) (st : St)
    (hkeys : ∀ x ∈ u, x ∈ keys st.values) :
    ∀ b, lookup (([d1, d2].foldl (fun st2 number =>
        u.foldl (fun st3 box =>
          if lookup st3.values box ≠ [d1, d2] then
            assign_value st3 box (pyReplace (lookup st3.values box) [number])
          else st3) st2) st)).values b =
      if b ∈ u ∧ lookup st.values b ≠ [d1, d2] then
        (lookup st.values b).filter (fun c => c ≠ d2 && c ≠ d1)
      else lookup st.values b := by
  intro b
  rw [List.foldl_cons, List.foldl_cons, List.foldl_nil]
  have h1 := nt_round_lookup u [d1, d2] d1 (by simp) st hkeys
  have hk1 : ∀ x ∈ u, x ∈ keys ((u.foldl (fun st3 box =>
      if lookup st3.values box ≠ [d1, d2] then
        assign_value st3 box (pyReplace (lookup st3.values box) [d1])
      else st3) st)).values := by
    intro x hx
    have : keys ((u.foldl (fun st3 box =>
        if lookup st3.values box ≠ [d1, d2] then
          assign_value st3 box (pyReplace (lookup st3.values box) [d1])
        else st3) st)).values = keys st.values := by
      refine foldl_keys _ _ (fun s q _ => ?_) st
      by_cases hq : lookup s.values q ≠ [d1, d2]
      · rw [if_pos hq, keys_assign_value]
      · rw [if_neg hq]
    rw [this]
    exact hkeys x hx
  have h2 := nt_round_lookup u [d1, d2] d2 (by simp) _ hk1
  rw [h2 b]
  by_cases hb : b ∈ u ∧ lookup st.values b ≠ [d1, d2]
  · have hr1b : lookup ((u.foldl (fun st3 box =>
        if lookup st3.values box ≠ [d1, d2] then
          assign_value st3 box (pyReplace (lookup st3.values box) [d1])
        else st3) st)).values b = (lookup st.values b).filter (fun c => c ≠ d1) := by
      rw [h1 b, if_pos hb]
    rw [hr1b]
    rw [if_pos ⟨hb.1, filter_ne_of_mem _ _ _ (by simp)⟩, if_pos hb, List.filter_filter]
  · have hr1b : lookup ((u.foldl (fun st3 box =>
        if lookup st3.values box ≠ [d1, d2] then
          assign_value st3 box (pyReplace (lookup st3.values box) [d1])
        else st3) st)).values b = lookup st.values b := by
      rw [h1 b, if_neg hb]
    rw [hr1b]
    rw [if_neg hb, if_neg hb]

theorem nt_F_keys (u : List String) (d1 d2 : Char) (st : St) :
    keys (([d1, d2].foldl (fun st2 number =>
        u.foldl (fun st3 box =>
          if lookup st3.values box ≠ [d1, d2] then
            assign_value st3 box (pyReplace (lookup st3.values box) [number])
          else st3) st2) st)).values = keys st.values := by
  refine foldl_keys _ _ (fun s number _ => ?_) st
  refine foldl_keys _ _ (fun s3 box _ => ?_) s
  by_cases hq : lookup s3.values box ≠ [d1, d2]
  · rw [if_pos hq, keys_assign_value]
  · rw [if_neg hq]

/-- C3 (amended): when a unit's naked-twin scan finds exactly one twin value
`d` (a two-digit candidate string occurring at exactly two cells), the
per-unit step of `naked_twins` removes exactly the two digits of `d` from
every cell of the unit whose value differs from `d`, leaves every cell whose
value equals `d` (the twins) unchanged, and touches no cell outside the
unit.  (The protection is by value, not by cell identity, so with two
overlapping twin pairs in one unit the twins themselves can change — see the
counterexample.) -/
theorem C3_nt_unit_single_pair (st : St) (u : List String) (d : List Char)
    (hu : u ∈ unitlist) (hk : keys st.values = boxes)
    (ht : twins_num st.values u = [d, d]) :
    (∀ b, lookup st.values b = d → lookup (nt_unit st u).values b = d) ∧
    (∀ b, b ∈ u → lookup st.values b ≠ d →
      lookup (nt_unit st u).values b =
        (lookup st.values b).filter (fun c => !(d.contains c))) ∧
    (∀ b, b ∉ u → lookup (nt_unit st u).values b = lookup st.values b) := by
  have hd2 : d.length = 2 := by
    have hmem : d ∈ twins_num st.values u := by rw [ht]; exact List.mem_cons_self _ _
    have hpred := (List.mem_filter.mp hmem).2
    exact (by simpa using hpred : _ ∧ d.length = 2).2
  obtain ⟨d1, d2, rfl⟩ : ∃ d1 d2, d = [d1, d2] := by
    cases d with
    | nil => simp at hd2
    | cons c1 cs =>
      cases cs with
      | nil => simp at hd2
      | cons c2 cs2 =>
        cases cs2 with
        | nil => exact ⟨c1, c2, rfl⟩
        | cons c3 cs3 => simp at hd2
  have hkeys : ∀ x ∈ u, x ∈ keys st.values := by
    intro x hx
    rw [hk]
    exact units_all_boxes u hu x hx
  have hunf : nt_unit st u = ([d1, d2]).foldl (fun st2 number =>
      u.foldl (fun st3 box =>
        if lookup st3.values box ≠ [d1, d2] then
          assign_value st3 box (pyReplace (lookup st3.values box) [number])
        else st3) st2)
      (([d1, d2]).foldl (fun st2 number =>
      u.foldl (fun st3 box =>
        if lookup st3.values box ≠ [d1, d2] then
          assign_value st3 box (pyReplace (lookup st3.values box) [number])
        else st3) st2) st) := by
    unfold nt_unit
    rw [ht, List.foldl_cons, List.foldl_cons, List.foldl_nil]
  have hA := nt_numbers_lookup u d1 d2 st hkeys
  have hkeys1 : ∀ x ∈ u, x ∈ keys (([d1, d2]).foldl (fun st2 number =>
      u.foldl (fun st3 box =>
        if lookup st3.values box ≠ [d1, d2] then
          assign_value st3 box (pyReplace (lookup st3.values box) [number])
        else st3) st2) st).values := by
    intro x hx
    rw [nt_F_keys]
    exact hkeys x hx
  have hB := nt_numbers_lookup u d1 d2 _ hkeys1
  refine ⟨?_, ?_, ?_⟩
  · intro b hbd
    rw [hunf, hB b]
    have hs1 : lookup (([d1, d2]).foldl (fun st2 number =>
        u.foldl (fun st3 box =>
          if lookup st3.values box ≠ [d1, d2] then
            assign_value st3 box (pyReplace (lookup st3.values box) [number])
          else st3) st2) st).values b = [d1, d2] := by
      rw [hA b, if_neg (by rintro ⟨_, hv⟩; exact hv hbd), hbd]
    rw [if_neg (by rintro ⟨_, hv⟩; exact hv hs1), hs1]
  · intro b hbu hbd
    have hs1 : lookup (([d1, d2]).foldl (fun st2 number =>
        u.foldl (fun st3 box =>
          if lookup st3.values box ≠ [d1, d2] then
            assign_value st3 box (pyReplace (lookup st3.values box) [number])
          else st3) st2) st).values b =
        (lookup st.values b).filter (fun c => c ≠ d2 && c ≠ d1) := by
      rw [hA b, if_pos ⟨hbu, hbd⟩]
    have hw : (lookup st.values b).filter (fun c => c ≠ d2 && c ≠ d1) ≠ [d1, d2] := by
      intro heq
      have hmem : d1 ∈ (lookup st.values b).filter (fun c => c ≠ d2 && c ≠ d1) := by
        rw [heq]; exact List.mem_cons_self _ _
      have := (List.mem_filter.mp hmem).2
      simp at this
    rw [hunf, hB b, hs1, if_pos ⟨hbu, hw⟩, filter_filter_self]
    refine List.filter_congr (fun c _ => ?_)
    by_cases h1 : c = d1
    · simp [h1]
    · by_cases h2 : c = d2 <;> simp [h1, h2]
  · intro b hbu
    have hs1 : lookup (([d1, d2]).foldl (fun st2 number =>
        u.foldl (fun st3 box =>
          if lookup st3.values box ≠ [d1, d2] then
            assign_value st3 box (pyReplace (lookup st3.values box) [number])
          else st3) st2) st).values b = lookup st.values b := by
      rw [hA b, if_neg (by rintro ⟨hm, _⟩; exact hbu hm)]
    rw [hunf, hB b, hs1, if_neg (by rintro ⟨hm, _⟩; exact hbu hm)]

/-- The single-twin-pair board for the witness: 23 at A1 and A2 only. -/
def c3w : Grid := gridOf [("A1", "23"), ("A2", "23")]

set_option maxRecDepth 40000 in
/-- Witness for `C3_nt_unit_single_pair` on row A of `c3w`: the twin cell A1
keeps its value and the outside cell A3 gets exactly the twin digits removed. -/
theorem C3_nt_unit_single_pair_witness :
    (cross [('A')] cols) ∈ unitlist ∧ keys c3w = boxes ∧
    twins_num c3w (cross [('A')] cols) = [['2', '3'], ['2', '3']] ∧
    lookup (nt_unit ⟨c3w, []⟩ (cross [('A')] cols)).values ("A1") = ['2', '3'] ∧
    lookup (nt_unit ⟨c3w, []⟩ (cross [('A')] cols)).values ("A3") =
      (lookup c3w ("A3")).filter (fun c => !((['2', '3'] : List Char).contains c)) := by
  have h := C3_nt_unit_single_pair ⟨c3w, []⟩ (cross [('A')] cols) ['2', '3']
    (by decide) (by decide) (by decide)
  exact ⟨by decide, by decide, by decide, h.1 ("A1") (by decide),
    h.2.1 ("A3") (by decide) (by decide)⟩

/-! ### C10: the `assignments` log is global, append-only, never cleared -/

theorem assign_value_log (g : Grid) (L : List Grid) (b : String) (v : List Char) :
    assign_value ⟨g, L⟩ b v =
      ⟨(assign_value ⟨g, []⟩ b v).values, L ++ (assign_value ⟨g, []⟩ b v).assignments⟩ := by
  by_cases h : v.length = 1 <;> simp [assign_value, h]

theorem st_id_log (g : Grid) (L : List Grid) :
    (⟨g, L⟩ : St) = ⟨(⟨g, []⟩ : St).values, L ++ (⟨g, []⟩ : St).assignments⟩ := by simp

theorem foldl_log {α : Type} (l : List α) (f : St → α → St)
    (h : ∀ g L a, a ∈ l →
      f ⟨g, L⟩ a = ⟨(f ⟨g, []⟩ a).values, L ++ (f ⟨g, []⟩ a).assignments⟩) :
    ∀ g L, l.foldl f ⟨g, L⟩ =
      ⟨(l.foldl f ⟨g, []⟩).values, L ++ (l.foldl f ⟨g, []⟩).assignments⟩ := by
  induction l with
  | nil => simp
  | cons a rest ih =>
    intro g L
    have ihr := ih (fun g3 L3 x hx => h g3 L3 x (List.mem_cons_of_mem a hx))
    have hstep := h g L a (List.mem_cons_self a rest)
    have hstep0 := h g [] a (List.mem_cons_self a rest)
    rw [List.foldl_cons, List.foldl_cons, hstep, hstep0]
    dsimp only
    rw [List.nil_append]
    rw [ihr ((f ⟨g, []⟩ a).values) (L ++ (f ⟨g, []⟩ a).assignments),
      ihr ((f ⟨g, []⟩ a).values) ((f ⟨g, []⟩ a).assignments)]
    dsimp only
    rw [List.append_assoc]

theorem elimBox_log (g : Grid) (L : List Grid) (box : String) :
    elimBox ⟨g, L⟩ box =
      ⟨(elimBox ⟨g, []⟩ box).values, L ++ (elimBox ⟨g, []⟩ box).assignments⟩ := by
  unfold elimBox
  exact foldl_log _ _ (fun g2 L2 peer _ => assign_value_log g2 L2 peer _) g L

theorem eliminate_order_log (ord : List String) (g : Grid) (L : List Grid) :
    eliminate_order ord ⟨g, L⟩ =
      ⟨(eliminate_order ord ⟨g, []⟩).values, L ++ (eliminate_order ord ⟨g, []⟩).assignments⟩ :=
  foldl_log _ _ (fun g2 L2 b _ => elimBox_log g2 L2 b) g L

theorem eliminate_log (g : Grid) (L : List Grid) :
    eliminate ⟨g, L⟩ =
      ⟨(eliminate ⟨g, []⟩).values, L ++ (eliminate ⟨g, []⟩).assignments⟩ :=
  eliminate_order_log _ g L

theorem nt_unit_log (g : Grid) (L : List Grid) (unit : List String) :
    nt_unit ⟨g, L⟩ unit =
      ⟨(nt_unit ⟨g, []⟩ unit).values, L ++ (nt_unit ⟨g, []⟩ unit).assignments⟩ := by
  unfold nt_unit
  refine foldl_log _ _ (fun g2 L2 numbers _ => ?_) g L
  refine foldl_log _ _ (fun g3 L3 number _ => ?_) g2 L2
  refine foldl_log _ _ (fun g4 L4 box _ => ?_) g3 L3
  by_cases hg : lookup g4 box ≠ numbers
  · simpa [hg] using assign_value_log g4 L4 box _
  · simp only [if_neg hg]
    exact st_id_log g4 L4

theorem naked_twins_log (g : Grid) (L : List Grid) :
    naked_twins ⟨g, L⟩ =
      ⟨(naked_twins ⟨g, []⟩).values, L ++ (naked_twins ⟨g, []⟩).assignments⟩ :=
  foldl_log _ _ (fun g2 L2 u _ => nt_unit_log g2 L2 u) g L

theorem oc_digit_log (g : Grid) (L : List Grid) (unit : List String) (digit : Char) :
    oc_digit ⟨g, L⟩ unit digit =
      ⟨(oc_digit ⟨g, []⟩ unit digit).values, L ++ (oc_digit ⟨g, []⟩ unit digit).assignments⟩ := by
  unfold oc_digit
  cases hf : unit.filter (fun box => (lookup g box).contains digit) with
  | nil => exact st_id_log g L
  | cons b rest =>
    cases rest with
    | nil => exact assign_value_log g L b _
    | cons c rest2 => exact st_id_log g L

theorem only_choice_log (g : Grid) (L : List Grid) :
    only_choice ⟨g, L⟩ =
      ⟨(only_choice ⟨g, []⟩).values, L ++ (only_choice ⟨g, []⟩).assignments⟩ := by
  unfold only_choice
  refine foldl_log _ _ (fun g2 L2 u _ => ?_) g L
  exact foldl_log _ _ (fun g3 L3 d _ => oc_digit_log g3 L3 u d) g2 L2

theorem comp_log (F G : St → St)
    (hF : ∀ g L, F ⟨g, L⟩ = ⟨(F ⟨g, []⟩).values, L ++ (F ⟨g, []⟩).assignments⟩)
    (hG : ∀ g L, G ⟨g, L⟩ = ⟨(G ⟨g, []⟩).values, L ++ (G ⟨g, []⟩).assignments⟩) :
    ∀ g L, G (F ⟨g, L⟩) =
      ⟨(G (F ⟨g, []⟩)).values, L ++ (G (F ⟨g, []⟩)).assignments⟩ := by
  intro g L
  have e3 : G (F ⟨g, []⟩) =
      ⟨(G ⟨(F ⟨g, []⟩).values, []⟩).values,
        (F ⟨g, []⟩).assignments ++ (G ⟨(F ⟨g, []⟩).values, []⟩).assignments⟩ := by
    conv_lhs =>
      rw [show F ⟨g, []⟩ =
        (⟨(F ⟨g, []⟩).values, (F ⟨g, []⟩).assignments⟩ : St) from rfl]
    exact hG _ _
  rw [hF g L, hG _ _, e3]
  dsimp only
  rw [List.append_assoc]

theorem reduce_pass_log (g : Grid) (L : List Grid) :
    reduce_pass ⟨g, L⟩ =
      ⟨(reduce_pass ⟨g, []⟩).values, L ++ (reduce_pass ⟨g, []⟩).assignments⟩ := by
  have h1 := comp_log eliminate naked_twins eliminate_log naked_twins_log
  have h2 := comp_log (fun st => naked_twins (eliminate st)) only_choice h1 only_choice_log
  exact h2 g L

theorem reduce_puzzle_log (fuel : Nat) (g : Grid) (L : List Grid) :
    reduce_puzzle fuel ⟨g, L⟩ =
      ((reduce_puzzle fuel ⟨g, []⟩).1, L ++ (reduce_puzzle fuel ⟨g, []⟩).2) := by
  induction fuel generalizing g L with
  | zero => simp [reduce_puzzle]
  | succ fuel ih =>
    rw [reduce_puzzle_unfold fuel ⟨g, L⟩, reduce_puzzle_unfold fuel ⟨g, []⟩,
      reduce_pass_log g L]
    dsimp only
    by_cases he : emptyCount (reduce_pass ⟨g, []⟩).values ≠ 0
    · rw [if_pos he, if_pos he]
    · rw [if_neg he, if_neg he]
      by_cases hs : solvedCount g = solvedCount (reduce_pass ⟨g, []⟩).values
      · rw [if_pos hs, if_pos hs]
      · rw [if_neg hs, if_neg hs]
        generalize reduce_pass ⟨g, []⟩ = S
        obtain ⟨V, A⟩ := S
        dsimp only
        rw [ih V (L ++ A), ih V A]
        dsimp only
        rw [List.append_assoc]

theorem search_fold_log (fuel : Nat) (values : Grid) (s : String)
    (hsearch : ∀ g L, search fuel ⟨g, L⟩ =
      ((search fuel ⟨g, []⟩).1, L ++ (search fuel ⟨g, []⟩).2))
    (cs : List Char) : ∀ M : List Grid,
    cs.foldl
      (fun acc c =>
        match acc with
        | (some v, log1) => (some v, log1)
        | (none, log1) => search fuel (assign_value ⟨values, log1⟩ s [c]))
      (none, M) =
    ((cs.foldl
      (fun acc c =>
        match acc with
        | (some v, log1) => (some v, log1)
        | (none, log1) => search fuel (assign_value ⟨values, log1⟩ s [c]))
      (none, [])).1,
      M ++ (cs.foldl
      (fun acc c =>
        match acc with
        | (some v, log1) => (some v, log1)
        | (none, log1) => search fuel (assign_value ⟨values, log1⟩ s [c]))
      (none, [])).2) := by
  have hstep : ∀ (c : Char) (M2 : List Grid),
      search fuel (assign_value ⟨values, M2⟩ s [c]) =
        ((search fuel (assign_value ⟨values, []⟩ s [c])).1,
          M2 ++ (search fuel (assign_value ⟨values, []⟩ s [c])).2) := by
    intro c M2
    rw [assign_value_log values M2 s [c]]
    generalize assign_value ⟨values, []⟩ s [c] = S
    obtain ⟨V, A⟩ := S
    dsimp only
    rw [hsearch V (M2 ++ A), hsearch V A]
    dsimp only
    rw [List.append_assoc]
  have hkeep : ∀ (v : Grid) (M2 : List Grid) (cs2 : List Char),
      cs2.foldl
        (fun acc c2 =>
          match acc with
          | (some v2, log1) => (some v2, log1)
          | (none, log1) => search fuel (assign_value ⟨values, log1⟩ s [c2]))
        (some v, M2) = (some v, M2) := by
    intro v M2 cs2
    induction cs2 with
    | nil => rfl
    | cons c2 rest2 ihc2 => simpa using ihc2
  induction cs with
  | nil => intro M; simp
  | cons c rest ihc =>
    intro M
    rw [List.foldl_cons, List.foldl_cons]
    show (rest.foldl _ (search fuel (assign_value ⟨values, M⟩ s [c]))) =
      ((rest.foldl _ (search fuel (assign_value ⟨values, []⟩ s [c]))).1,
        M ++ (rest.foldl _ (search fuel (assign_value ⟨values, []⟩ s [c]))).2)
    rw [hstep c M]
    cases hr : search fuel (assign_value ⟨values, []⟩ s [c]) with
    | mk o rlog =>
      cases o with
      | some v =>
        dsimp only
        rw [hkeep, hkeep]
      | none =>
        dsimp only
        rw [ihc (M ++ rlog), ihc rlog]
        dsimp only
        rw [List.append_assoc]

set_option maxRecDepth 4000 in
theorem search_log (fuel : Nat) (g : Grid) (L : List Grid) :
    search fuel ⟨g, L⟩ = ((search fuel ⟨g, []⟩).1, L ++ (search fuel ⟨g, []⟩).2) := by
  induction fuel generalizing g L with
  | zero =>
    have h0 : ∀ st : St, search 0 st = (none, st.assignments) := fun st => rfl
    rw [h0, h0]
    dsimp only
    rw [List.append_nil]
  | succ fuel ih =>
    have hunf : ∀ st : St, search (fuel + 1) st = search_step fuel (search fuel) st :=
      fun st => rfl
    rw [hunf, hunf]
    unfold search_step
    rw [reduce_puzzle_log (fuel + 1) g L]
    cases hred : reduce_puzzle (fuel + 1) ⟨g, []⟩ with
    | mk o log0 =>
      cases o with
      | none => rfl
      | some values =>
        dsimp only
        by_cases hall : boxes.all (fun s => (lookup values s).length == 1)
        · rw [if_pos hall, if_pos hall]
        · rw [if_neg hall, if_neg hall]
          cases hcb : choose_box values with
          | none => rfl
          | some p =>
            cases p with
            | mk n s =>
              dsimp only
              rw [search_fold_log fuel values s ih (lookup values s) (L ++ log0),
                search_fold_log fuel values s ih (lookup values s) log0]
              dsimp only
              rw [List.append_assoc]

/-- C10: the `assignments` list is one module-level list that is never
cleared.  With the global list threaded explicitly, running `solve` starting
from any pre-existing log appends this run's events after it; hence a second
`solve` call in the same process yields a log that extends (and in
particular still contains, as a prefix) the log of the first call, rather
than a fresh per-run log. -/
theorem C10_global_log (fuel : Nat) (s1 s2 : List Char) :
    (solve fuel s2 (solve fuel s1 []).2).2 =
      (solve fuel s1 []).2 ++ (solve fuel s2 []).2 ∧
    List.IsPrefix (solve fuel s1 []).2 (solve fuel s2 (solve fuel s1 []).2).2 := by
  have hmain : ∀ (s : List Char) (L : List Grid),
      (solve fuel s L).2 = L ++ (solve fuel s []).2 := by
    intro s L
    unfold solve
    cases hg : grid_values s with
    | none => simp
    | some g =>
      simp only
      rw [search_log fuel g L]
  exact ⟨hmain s2 _, hmain s2 _ ▸ ⟨(solve fuel s2 []).2, rfl⟩⟩

end Sudoku
